import Mathlib

/-!
# Central module: path engine and mission controller

A shallow embedding of `src/pathfinding/pathfinding.cpp` (`find_shortest_path`) and of one
iteration of the control loop of `src/pid_controller/pid_controller.cpp`
(`pid_ctrl_thread_main`), followed by the properties proved about them.

Conventions of the embedding:

* a C++ `int` is a Lean `Int`; the one addition of the path engine, `dist[current] + e.cost`,
  is reduced to the 32-bit two's-complement range with `wrap_int` (signed overflow is undefined
  behaviour in C++; the wrapped value is what the target hardware computes);
* a `std::unordered_map<int, int>` that is only accessed with `operator[]` is a total function
  `Int → Int`: an absent key reads as the value-initialised `0`;
* `std::make_heap` / `std::pop_heap` are library code: they are a parameter (`heap_ops`) of the
  embedding, constrained by the contract the C++ standard gives them (`heap_ops.lawful`);
* a call that does not produce a value is explicit in `outcome`.
-/

namespace CentralModule

/-! ## Track graph (`graph.hpp`) -/

/-- Modelled from the spec: the direction label of an edge, declared in `graph.hpp`, which is
not among the sources. The label is output-only: it is copied from an edge into a path step and
never inspected by the path engine. -/
inductive direction where
  | FORWARD
  | LEFT
  | RIGHT
  deriving DecidableEq, Repr

/-- Modelled from the spec: an edge of the track graph, "(end-node, cost, direction label)".
The source reads the members `end`, `cost` and `dir`; `end` is a reserved word here. -/
structure edge where
  end_ : Int
  cost : Int
  dir : direction
  deriving DecidableEq, Repr

/-- Modelled from the spec: the track graph of `graph.hpp`, "a directed graph with integer node
ids `0..N-1`, where each node exposes its outgoing edges". Entry `i` of `edges` is the
outgoing-edge vector of node `i`. -/
structure graph where
  edges : List (List edge)
  deriving DecidableEq, Repr

/-- Modelled from the spec: `graph::get_nodes`, "fetch total node count". -/
abbrev graph.get_nodes (g : graph) : Nat := g.edges.length

/-- Modelled from the spec: `graph::get_edges`, "enumerate a node's outgoing edges". An id that
is not a node of the graph has no outgoing edge. -/
def graph.get_edges (g : graph) (node : Int) : List edge :=
  if node < 0 then [] else g.edges.getD node.toNat []

/-- Modelled from the spec: `graph::get_edge`, "fetch the specific edge between two given
nodes": the first outgoing edge of `start` that ends at `stop`, when there is one. -/
def graph.get_edge (g : graph) (start stop : Int) : Option edge :=
  (g.get_edges start).find? (fun e => decide (e.end_ = stop))

/-- A step of a planned route: the node arrived at and the direction of the edge taken. -/
structure path_step where
  node : Int
  dir : direction
  deriving DecidableEq, Repr

/-! ## Machine integers and maps -/

/-- The value of `std::numeric_limits<int>::max()`. -/
def INT_MAX : Int := 2147483647

/-- The value of `std::numeric_limits<int>::min()`. -/
def INT_MIN : Int := -2147483648

/-- Reduction of a mathematical integer to the range of a 32-bit two's-complement `int`. -/
def wrap_int (x : Int) : Int := (x + 2147483648) % 4294967296 - 2147483648

/-- The assignment `m[k] = v` on a map read through `operator[]`. -/
def map_set (m : Int → Int) (k v : Int) : Int → Int :=
  fun i => if i = k then v else m i

/-! ## The heap operations of the standard library -/

/-- The two `<algorithm>` heap operations the path engine calls, on the vector `queue` and with
the comparator passed as an argument. -/
structure heap_ops where
  make_heap : (Int → Int → Bool) → List Int → List Int
  pop_heap : (Int → Int → Bool) → List Int → List Int

/-- The lambda `comparator` of `find_shortest_path`, bound to the current `dist` map:
`dist[lhs] > dist[rhs]`. -/
def comparator (dist : Int → Int) (lhs rhs : Int) : Bool := decide (dist lhs > dist rhs)

/-- The predicate `std::is_heap`: no element compares below its children. -/
def is_heap (cmp : Int → Int → Bool) (q : List Int) : Prop :=
  ∀ i : Nat, 0 < i → i < q.length → cmp (q.getD ((i - 1) / 2) 0) (q.getD i 0) = false

/-- The contract of the C++ standard for the two heap operations, for the comparators the path
engine uses: `make_heap` rearranges the range into a heap; `pop_heap`, on a non-empty heap,
moves the first element to the last position and leaves a heap in front of it. -/
structure heap_ops.lawful (H : heap_ops) : Prop where
  make_perm : ∀ (d : Int → Int) (q : List Int), (H.make_heap (comparator d) q).Perm q
  make_is_heap : ∀ (d : Int → Int) (q : List Int),
    is_heap (comparator d) (H.make_heap (comparator d) q)
  pop_spec : ∀ (d : Int → Int) (x : Int) (t : List Int), is_heap (comparator d) (x :: t) →
    ∃ r, H.pop_heap (comparator d) (x :: t) = r ++ [x] ∧ r.Perm t ∧ is_heap (comparator d) r

/-- A reference implementation of the heap operations: a range sorted so that no element
compares below a later one is a heap. -/
def sorted_heap : heap_ops where
  make_heap := fun cmp q => q.insertionSort (fun a b => cmp a b = false)
  pop_heap := fun cmp q =>
    match q with
    | [] => []
    | x :: t => t.insertionSort (fun a b => cmp a b = false) ++ [x]

/-! ## `find_shortest_path` -/

/-- What a call of `find_shortest_path` produces: the returned vector; undefined behaviour
(`operator[]` on an empty edge vector, or a lookup of an edge the graph does not have); or no
return at all (the unwinding loop never reaches `start`). -/
inductive outcome where
  | returns (path : List path_step)
  | undefined
  | diverges
  deriving DecidableEq, Repr

/-- The maps `dist` and `previous` of the search. -/
structure search_maps where
  dist : Int → Int
  previous : Int → Int

/-- Lines 34-41: `dist[i] = INT_MAX` for every node `i` other than `start`. -/
def init_dist (nodes : Nat) (start : Int) : Int → Int :=
  (List.range nodes).foldl
    (fun (d : Int → Int) (i : Nat) =>
      if Int.ofNat i = start then d else map_set d (Int.ofNat i) INT_MAX)
    (map_set (fun _ => 0) start 0)

/-- Lines 28-41: the vector `queue` before it is heapified: `start`, then every other node in
increasing order. -/
def init_queue (nodes : Nat) (start : Int) : List Int :=
  start :: ((List.range nodes).map Int.ofNat).filter (fun i => decide (i ≠ start))

/-- Lines 58-66: the body of the loop over the outgoing edges of `current`. The third component
is the flag `costs_updated`. -/
def relax_edge (current : Int) (st : search_maps × Bool) (e : edge) : search_maps × Bool :=
  let new_dist := wrap_int (st.1.dist current + e.cost)
  if new_dist < st.1.dist e.end_ then
    (⟨map_set st.1.dist e.end_ new_dist, map_set st.1.previous e.end_ current⟩, true)
  else st

/-- Lines 53-67: the loop over all outgoing edges of the popped node. -/
def relax (g : graph) (current : Int) (m : search_maps) : search_maps × Bool :=
  (g.get_edges current).foldl (relax_edge current) (m, false)

/-- Lines 46-71: the search loop, one iteration per unit of fuel. With a lawful heap every
iteration shortens `queue` by one, so `queue.length` units are enough. -/
def search_loop (H : heap_ops) (g : graph) : Nat → search_maps → List Int → Option search_maps
  | 0, m, queue => if queue.isEmpty then some m else none
  | fuel + 1, m, queue =>
    match queue with
    | [] => some m
    | current :: _ =>
      let popped := (H.pop_heap (comparator m.dist) queue).dropLast
      let r := relax g current m
      let queue2 := if r.2 then H.make_heap (comparator r.1.dist) popped else popped
      search_loop H g fuel r.1 queue2

/-- Lines 73-85: the unwinding loop, one test of `current != start` per unit of fuel; `path` is
in `push_back` order. -/
def unwind (g : graph) (previous : Int → Int) (start : Int) :
    Nat → Int → List path_step → outcome
  | 0, current, path => if current = start then outcome.returns path else outcome.diverges
  | fuel + 1, current, path =>
    if current = start then outcome.returns path
    else
      match g.get_edge (previous current) current with
      | none => outcome.undefined
      | some e => unwind g previous start fuel (previous current) (path ++ [path_step.mk current e.dir])

/-- Lines 87-95: the disabled `insert_original_start` block and the final `std::reverse`. -/
def finish (g : graph) (start original_start : Int) (insert_original_start : Bool)
    (o : outcome) : outcome :=
  match o with
  | outcome.returns path =>
    if insert_original_start then
      match (g.get_edges original_start).head? with
      | none => outcome.undefined
      | some e => outcome.returns (path ++ [path_step.mk start e.dir]).reverse
    else outcome.returns path.reverse
  | o => o

/-- Lines 22-71: the maps at the end of the search from `start`. -/
def search (H : heap_ops) (g : graph) (start : Int) : Option search_maps :=
  let queue := H.make_heap (comparator (init_dist g.get_nodes start)) (init_queue g.get_nodes start)
  search_loop H g queue.length ⟨init_dist g.get_nodes start, fun _ => 0⟩ queue

/-- Lines 22-95: the search from the effective `start`, the unwinding from `end` and the
reversal. The unwinding loop gets `get_nodes + 2` tests: `current` only takes values among `end`,
`0` and the nodes that were popped, so a loop that has not reached `start` by then never does
(`unwinding_bound_exact`). -/
def search_and_unwind (H : heap_ops) (g : graph) (start stop original_start : Int) : outcome :=
  match search H g start with
  | none => outcome.diverges
  | some m =>
    finish g start original_start false (unwind g m.previous start (g.get_nodes + 2) stop [])

/-- The function `find_shortest_path(g, start, end)` of `pathfinding.cpp`. -/
def find_shortest_path (H : heap_ops) (g : graph) (start stop : Int) : outcome :=
  if start = stop then
    match (g.get_edges start).head? with
    | none => outcome.undefined
    | some e => search_and_unwind H g e.end_ stop start
  else search_and_unwind H g start stop (-1)

/-! ## Every run a lawful heap allows

The standard fixes the heap operations only up to the choice among elements of equal cost. The
definitions below enumerate every choice, so that a statement about all lawful heaps on a concrete
graph can be settled by evaluation. -/

/-- Whether `c` has the lowest cost `dist[c]` among the elements of `queue`. -/
def is_min (dist : Int → Int) (queue : List Int) (c : Int) : Bool :=
  queue.all (fun x => decide (dist c ≤ dist x))

/-- The final maps of every run of the search loop in which each iteration pops some element of
lowest cost. -/
def all_runs (g : graph) : Nat → search_maps → List Int → List search_maps
  | 0, m, queue => if queue.isEmpty then [m] else []
  | fuel + 1, m, queue =>
    match queue with
    | [] => [m]
    | _ :: _ =>
      (queue.filter (is_min m.dist queue)).flatMap
        (fun c => all_runs g fuel (relax g c m).1 (queue.erase c))

/-- The outcomes of `search_and_unwind` over every run of the search loop. -/
def all_outcomes (g : graph) (start stop original_start : Int) : List outcome :=
  (all_runs g (init_queue g.get_nodes start).length ⟨init_dist g.get_nodes start, fun _ => 0⟩
      (init_queue g.get_nodes start)).map
    (fun m =>
      finish g start original_start false (unwind g m.previous start (g.get_nodes + 2) stop []))

/-- The outcomes of `find_shortest_path` over every run of the search loop. -/
def find_shortest_path_outcomes (g : graph) (start stop : Int) : List outcome :=
  if start = stop then
    match (g.get_edges start).head? with
    | none => [outcome.undefined]
    | some e => all_outcomes g e.end_ stop start
  else all_outcomes g start stop (-1)

/-! ## The mission controller (`pid_ctrl_thread_main`)

One iteration of the control loop, as a function of the registry contents at its start. The
registry entries are copied in and out through `get_*` / `set_*`; the iteration is taken without
interference from other threads. The angle, which lines 129-134 compare, is a `double` with its
not-a-number and its infinities; the other values of type `double` are rationals: the loop
copies them, and the tests on the speed are only evaluated at finite values here. -/

/-- A value of the C++ type `double`: not-a-number, an infinity, or a finite value (a rational
in this embedding). -/
inductive double where
  | nan
  | neg_inf
  | finite (q : ℚ)
  | pos_inf
  deriving DecidableEq, Repr

/-- The comparison `a < b` of two values of type `double` (`a > b` is `b < a`): false whenever
an operand is not-a-number. -/
def double.lt : double → double → Bool
  | double.finite a, double.finite b => decide (a < b)
  | double.neg_inf, double.finite _ => true
  | double.neg_inf, double.pos_inf => true
  | double.finite _, double.pos_inf => true
  | _, _ => false

/-- Modelled from the spec: the operator's control-change request of `registry_entries.hpp`,
"control-change requests (angle, speed)". -/
structure control_change_data where
  angle : Int
  speed : Int
  deriving DecidableEq, Repr

/-- Modelled from the spec: the regulator output of `registry_entries.hpp`, "angle/speed to
actuators". -/
structure regulator_out_data where
  angle : double
  speed : ℚ
  deriving DecidableEq, Repr

/-- Modelled from the spec: the regulator sample history of `registry_entries.hpp`,
"accumulated measurements such as distance-to-stop-line". The loop writes `dist_stop_line` and
copies the rest. -/
structure regulator_sample_data where
  dist_stop_line : ℚ
  others : List ℚ
  deriving DecidableEq, Repr

/-- Modelled from the spec: the telemetry block, which the loop only copies. -/
structure telemetrics_data where
  raw : List ℚ
  deriving DecidableEq, Repr

/-- Modelled from the spec: the regulator parameters, which the loop only copies. -/
structure regulator_param_data where
  raw : List ℚ
  deriving DecidableEq, Repr

/-- Modelled from the spec: the sensor readings, which the loop only copies. -/
structure sensor_data where
  raw : List ℚ
  deriving DecidableEq, Repr

/-- Modelled from the spec: the mission state of `registry_entries.hpp`: "the track graph
reference, an ordered queue of pending missions (each a start-node/end-node pair), the vehicle's
last-known previous and next graph positions, and a progress index into the current path". -/
structure mission_data where
  g : graph
  missions : List (Int × Int)
  previous_pos : Int
  next_pos : Int
  index : Nat
  deriving DecidableEq, Repr

/-- The registry entries the control loop reads or writes. -/
structure registry where
  sensor : sensor_data
  request : control_change_data
  metrics : telemetrics_data
  regulator_out : regulator_out_data
  params : regulator_param_data
  samples : regulator_sample_data
  mode : Nat
  mission : mission_data
  path : List path_step
  deriving DecidableEq, Repr

/-- The constants the loop uses, which are defined outside the sources. -/
structure constants where
  MANUAL : Nat
  MAX_INPUT_ANGLE : ℚ
  MAX_INPUT_SPEED : ℚ
  IMAGE_HEIGHT : ℚ
  STOP_LINE_FACTOR : ℚ
  deriving DecidableEq, Repr

/-- The member `map` of the regulation input (lines 98-102). -/
structure map_context where
  g : graph
  path : List path_step
  previous_pos : Int
  next_pos : Int
  index : Nat
  deriving DecidableEq, Repr

/-- The input of the regulation function, as line 91 assembles it. -/
structure pid_decision_in where
  metrics : telemetrics_data
  sensor : sensor_data
  params : regulator_param_data
  dt : ℚ
  samples : regulator_sample_data
  map : map_context
  deriving DecidableEq, Repr

/-- The members of the regulation result the loop reads (lines 109-139). -/
structure pid_decision_return where
  angle : double
  speed : ℚ
  samples : regulator_sample_data
  previous_pos : Int
  next_pos : Int
  index : Nat
  mission_finished : Bool
  deriving DecidableEq, Repr

/-- A call the iteration makes to the path engine or to the regulation function. -/
inductive call where
  | find_shortest_path (start stop : Int)
  | pid_decision
  deriving DecidableEq, Repr

/-- The condition `path.empty() || path.back().node != target` of lines 75 and 83. -/
def path_stale (path : List path_step) (target : Int) : Bool :=
  match path.getLast? with
  | none => true
  | some st => decide (st.node ≠ target)

/-- What the replanning step (lines 71-87) leaves: the path, the mission queue and the calls it
made. -/
structure plan where
  path : List path_step
  missions : List (Int × Int)
  calls : List call
  deriving DecidableEq, Repr

/-- Lines 71-87, for the front mission `mission`: the return-to-start branch, the replanning
branch, or the cached path. No value when a call of the path engine does not return one or when
`get_edges(mission.first)` is empty. -/
def plan_path (H : heap_ops) (md : mission_data) (path : List path_step) (mission : Int × Int) :
    Option plan :=
  if md.previous_pos ≠ mission.1 ∧ path_stale path mission.2 = true then
    match (md.g.get_edges mission.1).head? with
    | none => none
    | some e =>
      match find_shortest_path H md.g md.previous_pos e.end_ with
      | outcome.returns p =>
        some ⟨p, (md.previous_pos, e.end_) :: md.missions,
          [call.find_shortest_path md.previous_pos e.end_]⟩
      | _ => none
  else if path_stale path mission.2 = true then
    match find_shortest_path H md.g md.previous_pos mission.2 with
    | outcome.returns p => some ⟨p, md.missions, [call.find_shortest_path md.previous_pos mission.2]⟩
    | _ => none
  else some ⟨path, md.missions, []⟩

/-- Lines 90-103: the input handed to the regulation function. -/
def regulation_input (reg : registry) (dt : ℚ) (path : List path_step) : pid_decision_in :=
  { metrics := reg.metrics, sensor := reg.sensor, params := reg.params, dt := dt,
    samples := reg.samples,
    map := ⟨reg.mission.g, path, reg.mission.previous_pos, reg.mission.next_pos,
      reg.mission.index⟩ }

/-- Lines 108-113: an index at or past the end of the path stops the vehicle and finishes the
mission. -/
def stay_at_end (path : List path_step) (r : pid_decision_return) : pid_decision_return :=
  if r.index ≥ path.length then { r with speed := 0, mission_finished := true } else r

/-- Lines 114-119, the regulation result's part: a finished mission resets the index and the
distance to the stop line. -/
def finish_mission (C : constants) (r : pid_decision_return) : pid_decision_return :=
  if r.mission_finished = true then
    { r with index := 0,
             samples := { r.samples with dist_stop_line := C.IMAGE_HEIGHT * C.STOP_LINE_FACTOR } }
  else r

/-- Lines 128-130: "Bind the angle". -/
def bind_angle (C : constants) (r : pid_decision_return) : pid_decision_return :=
  if double.lt (double.finite C.MAX_INPUT_ANGLE) r.angle = true then
    { r with angle := double.finite C.MAX_INPUT_ANGLE }
  else if double.lt r.angle (double.finite (-C.MAX_INPUT_ANGLE)) = true then
    { r with angle := double.finite (-C.MAX_INPUT_ANGLE) }
  else r

/-- Lines 132-134: "Bind the speed". The second test reads `regulate.angle`, as line 134 does. -/
def bind_speed (C : constants) (r : pid_decision_return) : pid_decision_return :=
  if r.speed > C.MAX_INPUT_SPEED then { r with speed := C.MAX_INPUT_SPEED }
  else if double.lt r.angle (double.finite (-C.MAX_INPUT_SPEED)) = true then
    { r with speed := -C.MAX_INPUT_SPEED }
  else r

/-- Lines 105-145: the regulation call and everything after it, for the path and queue the
replanning step left. -/
def regulate_and_publish (C : constants) (pid_decision : pid_decision_in → pid_decision_return)
    (dt : ℚ) (reg : registry) (pl : plan) : registry :=
  let r1 := stay_at_end pl.path (pid_decision (regulation_input reg dt pl.path))
  let missions := if r1.mission_finished = true then pl.missions.tail else pl.missions
  let r2 := finish_mission C r1
  let r3 := bind_speed C (bind_angle C r2)
  { reg with
    path := pl.path
    regulator_out := ⟨r3.angle, r3.speed⟩
    samples := r2.samples
    mission := { reg.mission with
      missions := missions
      previous_pos := r2.previous_pos
      next_pos := r2.next_pos
      index := r2.index } }

/-- What one iteration of the loop leaves: the registry and the calls made. -/
structure iteration where
  reg : registry
  calls : List call
  deriving DecidableEq, Repr

/-- One iteration of the loop of `pid_ctrl_thread_main` (lines 32-153), started at elapsed time
`dt` since the previous one. No value when the replanning step has none. -/
def pid_ctrl_iteration (H : heap_ops) (C : constants)
    (pid_decision : pid_decision_in → pid_decision_return) (dt : ℚ) (reg : registry) :
    Option iteration :=
  if reg.mode = C.MANUAL then
    some ⟨{ reg with regulator_out :=
      ⟨double.finite (reg.request.angle : ℚ), (reg.request.speed : ℚ)⟩ }, []⟩
  else
    match reg.mission.missions with
    | [] => some ⟨reg, []⟩
    | mission :: _ =>
      match plan_path H reg.mission reg.path mission with
      | none => none
      | some pl =>
        some ⟨regulate_and_publish C pid_decision dt reg pl, pl.calls ++ [call.pid_decision]⟩

/-! ## The shared state registry (`data_registry.cpp`)

The member `registry` maps an id to an entry made of the id, a `void*` to the data and a
`std::mutex`. One call of `acquire_data` or `release_data` is a function of the registry; a call
of `acquire_data` that has to wait for the mutex has no value. -/

/-- Modelled from the spec: the ids of `registry_entries.hpp`, which is not among the sources:
the nine ids that `data_registry.cpp` and `pid_controller.cpp` pass to the registry, taken to be
pairwise different strings. -/
inductive registry_id where
  | SENSOR_DATA_ID
  | CONTROL_CHANGE_DATA_ID
  | TELEMETRICS_DATA_ID
  | REGULATOR_OUT_DATA_ID
  | REGULATOR_PARAM_DATA_ID
  | REGULATOR_SAMPLE_DATA_ID
  | MODE_ID
  | MISSION_DATA_ID
  | PATH_ID
  deriving DecidableEq, Repr

/-- A `void*` held by the registry: `nullptr`, or the object that the constructor allocated with
`new` for an id. -/
inductive pointer where
  | nullptr
  | object (id : registry_id)
  deriving DecidableEq, Repr

/-- The struct `registry_entry`: the members `id` and `data`, and whether the member `lock` is
held. -/
structure registry_entry where
  id : registry_id
  data : pointer
  locked : Bool
  deriving DecidableEq, Repr

/-- The class `data_registry`: its member map `registry`. -/
structure data_registry where
  registry : registry_id → Option registry_entry

/-- The two statements `registry[id].id = id; registry[id].data = (void*) p;` of the
constructor, where `p` is a fresh object: `operator[]` creates the entry, with an unlocked
mutex. -/
def data_registry.initialise (r : data_registry) (id : registry_id) : data_registry :=
  ⟨fun k => if k = id then some ⟨id, pointer.object id, false⟩ else r.registry k⟩

/-- The constructor `data_registry::data_registry()` (lines 6-29); the name of the class is
taken by the structure. -/
def data_registry.constructor : data_registry :=
  ((((data_registry.mk (fun _ => none)).initialise registry_id.SENSOR_DATA_ID).initialise
    registry_id.CONTROL_CHANGE_DATA_ID).initialise registry_id.TELEMETRICS_DATA_ID).initialise
    registry_id.REGULATOR_OUT_DATA_ID |>.initialise registry_id.REGULATOR_PARAM_DATA_ID

/-- The method `data_registry::acquire_data` (lines 45-60): the pointer returned and the
registry after the call; no value when the call waits for the entry's mutex. -/
def data_registry.acquire_data (r : data_registry) (id : registry_id) :
    Option (pointer × data_registry) :=
  match r.registry id with
  | none => some (pointer.nullptr, r)
  | some entry =>
    if entry.locked = true then none
    else
      some (entry.data,
        ⟨fun k => if k = id then some { entry with locked := true } else r.registry k⟩)

/-- The method `data_registry::release_data` (lines 62-72). -/
def data_registry.release_data (r : data_registry) (id : registry_id) : data_registry :=
  match r.registry id with
  | none => r
  | some entry => ⟨fun k => if k = id then some { entry with locked := false } else r.registry k⟩

/-- A call of the registry made by an execution context. The code does not look at the
context: it only names the caller. -/
inductive registry_call where
  | acquire_data (context : Nat) (id : registry_id)
  | release_data (context : Nat) (id : registry_id)
  deriving DecidableEq, Repr

/-- The id a call is made for. -/
def registry_call.id : registry_call → registry_id
  | registry_call.acquire_data _ id => id
  | registry_call.release_data _ id => id

/-- The registry after a call has returned; no value for an `acquire_data` that has to wait. -/
def data_registry.call (r : data_registry) : registry_call → Option data_registry
  | registry_call.acquire_data _ id => (r.acquire_data id).map Prod.snd
  | registry_call.release_data _ id => some (r.release_data id)

/-- The registry after the calls of concurrently running contexts have returned in the given
order; no value when that order is impossible because one of the calls would still be waiting
for a mutex. -/
def data_registry.run (r : data_registry) : List registry_call → Option data_registry
  | [] => some r
  | c :: rest =>
    match r.call c with
    | none => none
    | some r2 => r2.run rest

/-! ## Inputs used in the examples -/

/-- The graph of the example scenario: `0 → 1 → 2`, both edges of cost 1 and direction
`FORWARD`. -/
def example_graph : graph :=
  ⟨[[⟨1, 1, direction.FORWARD⟩], [⟨2, 1, direction.FORWARD⟩], []]⟩

/-- A graph with non-negative costs in which `1` is reachable from `0` (edge `0 → 1`, cost 1)
and the nodes `2` and `3`, unreachable from `0`, lie on a cycle `2 → 3 → 2` with an edge
`3 → 1`. -/
def overflow_cycle_graph : graph :=
  ⟨[[⟨1, 1, direction.FORWARD⟩], [], [⟨3, 1, direction.FORWARD⟩],
    [⟨2, 1, direction.FORWARD⟩, ⟨1, 1, direction.FORWARD⟩]]⟩

/-- A graph with non-negative costs in which `1` is reachable from `0` (edge `0 → 1`, cost 1)
and node `2`, unreachable from `0`, has an edge `2 → 1` of cost 1. -/
def overflow_graph : graph :=
  ⟨[[⟨1, 1, direction.FORWARD⟩], [], [⟨1, 1, direction.LEFT⟩]]⟩

/-- The two-node circuit `0 → 1 → 0`. -/
def circuit_graph : graph :=
  ⟨[[⟨1, 1, direction.FORWARD⟩], [⟨0, 1, direction.LEFT⟩]]⟩

/-- The one-node graph whose only edge is the loop `0 → 0` of cost 1. -/
def self_loop_graph : graph :=
  ⟨[[⟨0, 1, direction.FORWARD⟩]]⟩

/-- The three-node circuit `0 → 1 → 2 → 0`. -/
def ring_graph : graph :=
  ⟨[[⟨1, 1, direction.FORWARD⟩], [⟨2, 1, direction.LEFT⟩], [⟨0, 1, direction.RIGHT⟩]]⟩

/-- The circuit `0 → 1 → 0` with a third node, unreachable from `1`, that has an edge `2 → 0`;
all costs are 1. -/
def overflow_circuit_graph : graph :=
  ⟨[[⟨1, 1, direction.FORWARD⟩], [⟨0, 1, direction.LEFT⟩], [⟨0, 1, direction.RIGHT⟩]]⟩

/-- Whether every edge of the graph has a non-negative cost. -/
def graph.nonneg_costs (g : graph) : Prop :=
  ∀ es ∈ g.edges, ∀ e ∈ es, 0 ≤ e.cost

instance (g : graph) : Decidable g.nonneg_costs := by
  unfold graph.nonneg_costs
  infer_instance

/-- Constants for the examples: mode `0` is `MANUAL`; angle and speed are bound by 100. -/
def example_constants : constants :=
  { MANUAL := 0, MAX_INPUT_ANGLE := 100, MAX_INPUT_SPEED := 100,
    IMAGE_HEIGHT := 240, STOP_LINE_FACTOR := 1 / 2 }

/-- Constants for the examples with an angle bound above the speed bound. -/
def wide_angle_constants : constants :=
  { MANUAL := 0, MAX_INPUT_ANGLE := 100, MAX_INPUT_SPEED := 50,
    IMAGE_HEIGHT := 240, STOP_LINE_FACTOR := 1 / 2 }

/-- A registry in autonomous mode (mode `1`) on the graph `g`, with the given mission queue,
position and cached path; the request asks for angle 7 and speed 9. -/
def example_registry (g : graph) (missions : List (Int × Int)) (previous_pos : Int)
    (path : List path_step) : registry :=
  { sensor := ⟨[]⟩, request := ⟨7, 9⟩, metrics := ⟨[]⟩, regulator_out := ⟨double.finite 3, 4⟩,
    params := ⟨[]⟩,
    samples := ⟨5, []⟩, mode := 1,
    mission := ⟨g, missions, previous_pos, previous_pos, 0⟩,
    path := path }

/-- A regulation function for the examples: it returns the given angle, speed and index, keeps
samples and positions, and does not set mission-finished. -/
def example_regulation (angle speed : ℚ) (index : Nat) (i : pid_decision_in) :
    pid_decision_return :=
  { angle := double.finite angle, speed := speed, samples := i.samples,
    previous_pos := i.map.previous_pos, next_pos := i.map.next_pos, index := index,
    mission_finished := false }

/-- A regulation function for the examples whose angle is not-a-number; speed 10, index 0,
samples and positions kept, mission-finished not set. -/
def nan_regulation (i : pid_decision_in) : pid_decision_return :=
  { angle := double.nan, speed := 10, samples := i.samples, previous_pos := i.map.previous_pos,
    next_pos := i.map.next_pos, index := 0, mission_finished := false }

/-! ## Walks, routes and the conditions under which the search is exact -/

/-- Whether `v` is a node id of a graph with `nodes` nodes. -/
def is_node (nodes : Nat) (v : Int) : Prop := 0 ≤ v ∧ v < (nodes : Int)

instance (nodes : Nat) (v : Int) : Decidable (is_node nodes v) := by
  unfold is_node
  infer_instance

/-- The walks of the graph: `walk g u v w` is a sequence of edges leading from `u` to `v`, of
total cost `w`. -/
inductive walk (g : graph) : Int → Int → Int → Prop where
  | refl (u : Int) : walk g u u 0
  | step {u v w : Int} (e : edge) : walk g u v w → e ∈ g.get_edges v →
      walk g u e.end_ (w + e.cost)

/-- Whether the steps of `path`, taken from node `u`, follow edges of the graph, each step
carrying the direction of the edge `get_edge` gives for its hop. -/
def route_ok (g : graph) : Int → List path_step → Bool
  | _, [] => true
  | u, st :: rest =>
    match g.get_edge u st.node with
    | none => false
    | some e => decide (st.dir = e.dir) && route_ok g st.node rest

/-- The sum of the costs of the edges `get_edge` gives for the hops of `path`, taken from node
`u`; no value when a hop has no edge. -/
def route_cost (g : graph) : Int → List path_step → Option Int
  | _, [] => some 0
  | u, st :: rest =>
    match g.get_edge u st.node with
    | none => none
    | some e => (route_cost g st.node rest).map (fun c => e.cost + c)

/-- The node at which `path`, taken from node `u`, ends. -/
def route_end (u : Int) (path : List path_step) : Int :=
  match path.getLast? with
  | none => u
  | some st => st.node

/-- Graphs on which the 32-bit arithmetic of the search is exact: every edge ends at a node and
has a cost between 0 and `B`, `get_nodes * B` is below `INT_MAX`, and no node has two edges to
the same node. -/
structure graph.bounded (g : graph) (B : Int) : Prop where
  bound_nonneg : 0 ≤ B
  small : (g.get_nodes : Int) * B < INT_MAX
  ends : ∀ es ∈ g.edges, ∀ e ∈ es, is_node g.get_nodes e.end_
  costs : ∀ es ∈ g.edges, ∀ e ∈ es, 0 ≤ e.cost ∧ e.cost ≤ B
  simple : ∀ es ∈ g.edges, (es.map edge.end_).Nodup

/-- The effect on the maps of relaxing the edges `es` of the popped node `u`, whose cost is
`du`. -/
structure relaxed (u du : Int) (es : List edge) (m m2 : search_maps) : Prop where
  self : m2.dist u = du
  le : ∀ v, m2.dist v ≤ m.dist v
  edges : ∀ e ∈ es, m2.dist e.end_ ≤ du + e.cost
  cases : ∀ v, (m2.dist v = m.dist v ∧ m2.previous v = m.previous v) ∨
    (m2.dist v < m.dist v ∧ m2.previous v = u ∧ ∃ e ∈ es, e.end_ = v ∧ m2.dist v = du + e.cost)

/-- The invariant of the search loop on a bounded graph in which every node is reachable from
the start `s`: `q` is the queue, `k` the number of nodes popped so far and `rank` the position at
which each popped node was popped. -/
structure search_inv (g : graph) (s B : Int) (m : search_maps) (q : List Int) (k : Nat)
    (rank : Int → Nat) : Prop where
  count : k + q.length = g.get_nodes
  q_nodes : ∀ v ∈ q, is_node g.get_nodes v
  q_nodup : q.Nodup
  start_node : is_node g.get_nodes s
  dist_start : m.dist s = 0
  fresh : s ∈ q → ∀ v, is_node g.get_nodes v → v ∈ q ∧ (v ≠ s → m.dist v = INT_MAX)
  nonneg : ∀ v, 0 ≤ m.dist v
  bound : ∀ v, is_node g.get_nodes v → m.dist v = INT_MAX ∨ m.dist v ≤ (k : Int) * B
  popped_le : ∀ v, is_node g.get_nodes v → v ∉ q → ∀ u ∈ q, m.dist v ≤ m.dist u
  popped_edges : ∀ v, is_node g.get_nodes v → v ∉ q →
    ∀ e ∈ g.get_edges v, m.dist e.end_ ≤ m.dist v + e.cost
  popped_finite : ∀ v, is_node g.get_nodes v → v ∉ q → m.dist v < INT_MAX
  tree : ∀ v, is_node g.get_nodes v → v ≠ s → m.dist v < INT_MAX →
    is_node g.get_nodes (m.previous v) ∧ m.previous v ∉ q ∧
    rank (m.previous v) < rank v ∧
    ∃ e ∈ g.get_edges (m.previous v), e.end_ = v ∧ m.dist v = m.dist (m.previous v) + e.cost
  rank_queue : ∀ v ∈ q, rank v = g.get_nodes
  rank_popped : ∀ v, is_node g.get_nodes v → v ∉ q → rank v < k

/-! ## Lemmas: heaps -/

theorem comparator_eq_false (d : Int → Int) (a b : Int) :
    comparator d a b = false ↔ d a ≤ d b := by
  simp [comparator]

/-- The first element of a heap has the lowest cost. -/
theorem is_heap_front_le (d : Int → Int) (q : List Int) (h : is_heap (comparator d) q) :
    ∀ i : Nat, i < q.length → d (q.getD 0 0) ≤ d (q.getD i 0) := by
  intro i
  induction i using Nat.strong_induction_on with
  | _ i ih =>
    intro hi
    rcases Nat.eq_zero_or_pos i with h0 | hpos
    · subst h0; exact le_refl _
    · have hp : (i - 1) / 2 < i := by omega
      have h1 := ih ((i - 1) / 2) hp (by omega)
      have h2 := (comparator_eq_false d _ _).1 (h i hpos hi)
      exact le_trans h1 h2

theorem is_heap_head_min (d : Int → Int) (c : Int) (t : List Int)
    (h : is_heap (comparator d) (c :: t)) : is_min d (c :: t) c = true := by
  unfold is_min
  rw [List.all_eq_true]
  intro x hx
  obtain ⟨i, hi, rfl⟩ := List.getElem_of_mem hx
  have h1 := is_heap_front_le d (c :: t) h i hi
  rw [List.getD_eq_getElem _ _ hi] at h1
  simpa using h1

theorem sorted_is_heap (d : Int → Int) (q : List Int)
    (h : q.Sorted (fun a b => comparator d a b = false)) : is_heap (comparator d) q := by
  intro i hpos hi
  have hp : (i - 1) / 2 < i := by omega
  have hp2 : (i - 1) / 2 < q.length := by omega
  rw [List.getD_eq_getElem _ _ hi, List.getD_eq_getElem _ _ hp2]
  exact List.pairwise_iff_getElem.1 h _ _ hp2 hi hp

theorem insertionSort_sorted (d : Int → Int) (q : List Int) :
    (q.insertionSort (fun a b => comparator d a b = false)).Sorted
      (fun a b => comparator d a b = false) := by
  haveI : IsTotal Int (fun a b => comparator d a b = false) :=
    ⟨fun a b => by simp only [comparator_eq_false]; exact le_total _ _⟩
  haveI : IsTrans Int (fun a b => comparator d a b = false) :=
    ⟨fun a b c => by simp only [comparator_eq_false]; exact le_trans⟩
  exact List.sorted_insertionSort _ q

/-- The reference heap satisfies the contract of the standard. -/
theorem sorted_heap_lawful : sorted_heap.lawful where
  make_perm := fun _ q => List.perm_insertionSort _ q
  make_is_heap := fun d q => sorted_is_heap d _ (insertionSort_sorted d q)
  pop_spec := fun d _ t _ =>
    ⟨t.insertionSort (fun a b => comparator d a b = false), rfl,
      List.perm_insertionSort _ t, sorted_is_heap d _ (insertionSort_sorted d t)⟩

/-! ## Lemmas: the search loop refines the enumeration of runs -/

theorem relax_fold_flag (current : Int) (es : List edge) (st : search_maps × Bool)
    (h : st.2 = true) : (es.foldl (relax_edge current) st).2 = true := by
  induction es generalizing st with
  | nil => exact h
  | cons e es ih =>
    rw [List.foldl_cons]
    apply ih
    unfold relax_edge
    dsimp only
    split
    · rfl
    · exact h

theorem relax_fold_not_updated (current : Int) (es : List edge) (st : search_maps × Bool)
    (h : (es.foldl (relax_edge current) st).2 = false) :
    es.foldl (relax_edge current) st = st := by
  induction es generalizing st with
  | nil => rfl
  | cons e es ih =>
    rw [List.foldl_cons] at h ⊢
    by_cases hc : wrap_int (st.1.dist current + e.cost) < st.1.dist e.end_
    · have hflag : (relax_edge current st e).2 = true := by
        unfold relax_edge
        dsimp only
        rw [if_pos hc]
      rw [relax_fold_flag current es _ hflag] at h
      exact absurd h (by decide)
    · have hst : relax_edge current st e = st := by
        unfold relax_edge
        dsimp only
        rw [if_neg hc]
      rw [hst] at h ⊢
      exact ih st h

/-- When `costs_updated` stays false, the maps are unchanged. -/
theorem relax_not_updated (g : graph) (current : Int) (m : search_maps)
    (h : (relax g current m).2 = false) : (relax g current m).1 = m := by
  unfold relax at h ⊢
  rw [relax_fold_not_updated current _ _ h]

theorem is_min_perm (d : Int → Int) (q q2 : List Int) (c : Int) (hp : q.Perm q2)
    (h : is_min d q c = true) : is_min d q2 c = true := by
  unfold is_min at h ⊢
  rw [List.all_eq_true] at h ⊢
  intro x hx
  exact h x (hp.mem_iff.2 hx)

theorem all_runs_perm (g : graph) : ∀ (fuel : Nat) (m : search_maps) (q q2 : List Int),
    q.Perm q2 → ∀ r, r ∈ all_runs g fuel m q → r ∈ all_runs g fuel m q2 := by
  intro fuel
  induction fuel with
  | zero =>
    intro m q q2 hp r hr
    cases q with
    | nil => rw [hp.nil_eq] at *; exact hr
    | cons a t => simp [all_runs] at hr
  | succ fuel ih =>
    intro m q q2 hp r hr
    cases q with
    | nil => rw [hp.nil_eq] at *; exact hr
    | cons a t =>
      cases q2 with
      | nil => exact absurd hp.eq_nil (by simp)
      | cons b t2 =>
        simp only [all_runs, List.mem_flatMap, List.mem_filter] at hr ⊢
        obtain ⟨c, ⟨hc, hmin⟩, hr⟩ := hr
        exact ⟨c, ⟨hp.mem_iff.1 hc, is_min_perm _ _ _ c hp hmin⟩,
          ih _ _ _ (hp.erase c) r hr⟩

/-- With a lawful heap the search loop terminates within `queue.length` iterations, and its
result is one of the enumerated runs. -/
theorem search_loop_refines (H : heap_ops) (hH : H.lawful) (g : graph) :
    ∀ (fuel : Nat) (m : search_maps) (q : List Int),
      is_heap (comparator m.dist) q → q.length ≤ fuel →
      ∃ r, r ∈ all_runs g fuel m q ∧ search_loop H g fuel m q = some r := by
  intro fuel
  induction fuel with
  | zero =>
    intro m q _ hlen
    have hq : q = [] := List.eq_nil_of_length_eq_zero (Nat.le_zero.1 hlen)
    subst hq
    exact ⟨m, by simp [all_runs], by simp [search_loop]⟩
  | succ fuel ih =>
    intro m q hheap hlen
    cases q with
    | nil => exact ⟨m, by simp [all_runs], by simp [search_loop]⟩
    | cons c t =>
      obtain ⟨r, hpop, hperm, hr⟩ := hH.pop_spec m.dist c t hheap
      have hlen2 : t.length ≤ fuel := by simpa using hlen
      -- the queue after the optional re-heapify
      have hq2 : ∃ q2, q2 = (if (relax g c m).2 then
            H.make_heap (comparator (relax g c m).1.dist) r else r) ∧ q2.Perm t ∧
            is_heap (comparator (relax g c m).1.dist) q2 := by
        by_cases hu : (relax g c m).2 = true
        · refine ⟨_, rfl, ?_, ?_⟩
          · rw [if_pos hu]; exact (hH.make_perm _ r).trans hperm
          · rw [if_pos hu]; exact hH.make_is_heap _ r
        · have hu2 : (relax g c m).2 = false := by simpa using hu
          refine ⟨_, rfl, ?_, ?_⟩
          · rw [if_neg hu]; exact hperm
          · rw [if_neg hu, relax_not_updated g c m hu2]; exact hr
      obtain ⟨q2, hq2eq, hq2perm, hq2heap⟩ := hq2
      obtain ⟨res, hres, hloop⟩ := ih (relax g c m).1 q2 hq2heap (by
        rw [hq2perm.length_eq]; exact hlen2)
      refine ⟨res, ?_, ?_⟩
      · simp only [all_runs, List.mem_flatMap, List.mem_filter]
        refine ⟨c, ⟨List.mem_cons_self _ _, is_heap_head_min _ c t hheap⟩, ?_⟩
        rw [List.erase_cons_head]
        exact all_runs_perm g fuel _ q2 t hq2perm res hres
      · simp only [search_loop]
        rw [hpop, List.dropLast_concat, ← hq2eq]
        exact hloop

/-- Every outcome a lawful heap can give `search_and_unwind` is among the enumerated ones. -/
theorem search_and_unwind_mem (H : heap_ops) (hH : H.lawful) (g : graph)
    (start stop original_start : Int) :
    search_and_unwind H g start stop original_start ∈ all_outcomes g start stop original_start := by
  obtain ⟨r, hr, hloop⟩ := search_loop_refines H hH g
    (H.make_heap (comparator (init_dist g.get_nodes start))
      (init_queue g.get_nodes start)).length
    ⟨init_dist g.get_nodes start, fun _ => 0⟩
    (H.make_heap (comparator (init_dist g.get_nodes start)) (init_queue g.get_nodes start))
    (hH.make_is_heap _ _) (le_refl _)
  have hperm := hH.make_perm (init_dist g.get_nodes start) (init_queue g.get_nodes start)
  rw [hperm.length_eq] at hr hloop
  have hr2 := all_runs_perm g _ _ _ _ hperm r hr
  unfold search_and_unwind search all_outcomes
  simp only [hperm.length_eq, hloop]
  exact List.mem_map.2 ⟨r, hr2, rfl⟩

/-- Every outcome a lawful heap can give `find_shortest_path` is among the enumerated ones. -/
theorem find_shortest_path_mem (H : heap_ops) (hH : H.lawful) (g : graph) (start stop : Int) :
    find_shortest_path H g start stop ∈ find_shortest_path_outcomes g start stop := by
  unfold find_shortest_path find_shortest_path_outcomes
  by_cases h : start = stop
  · rw [if_pos h, if_pos h]
    cases (g.get_edges start).head? with
    | none => simp
    | some e => exact search_and_unwind_mem H hH g e.end_ stop start
  · rw [if_neg h, if_neg h]
    exact search_and_unwind_mem H hH g start stop (-1)

/-! ## Lemmas: the unwinding loop -/

theorem unwind_nodes_ne_start (g : graph) (previous : Int → Int) (start : Int) :
    ∀ (fuel : Nat) (current : Int) (path p : List path_step),
      unwind g previous start fuel current path = outcome.returns p →
      (∀ st ∈ path, st.node ≠ start) → ∀ st ∈ p, st.node ≠ start := by
  intro fuel
  induction fuel with
  | zero =>
    intro current path p h hpath
    unfold unwind at h
    split at h
    · cases h; exact hpath
    · cases h
  | succ fuel ih =>
    intro current path p h hpath
    unfold unwind at h
    split at h
    · cases h; exact hpath
    · rename_i hne
      split at h
      · cases h
      · refine ih _ _ p h ?_
        intro st hst
        rcases List.mem_append.1 hst with h1 | h1
        · exact hpath st h1
        · rw [List.mem_singleton.1 h1]; exact hne

theorem search_and_unwind_nodes_ne_start (H : heap_ops) (g : graph)
    (start stop original_start : Int) (p : List path_step)
    (h : search_and_unwind H g start stop original_start = outcome.returns p) :
    ∀ st ∈ p, st.node ≠ start := by
  unfold search_and_unwind at h
  split at h
  · cases h
  · rename_i m _
    cases hu : unwind g m.previous start (g.get_nodes + 2) stop [] with
    | returns path =>
      rw [hu] at h
      simp only [finish, Bool.false_eq_true, if_false] at h
      cases h
      intro st hst
      exact unwind_nodes_ne_start g m.previous start _ stop [] path hu (by simp) st
        (List.mem_reverse.1 hst)
    | undefined => rw [hu] at h; simp [finish] at h
    | diverges => rw [hu] at h; simp [finish] at h

/-! ## Lemmas: the bound on the unwinding loop is exact -/

/-- The unwinding loop is still running after `fuel` tests exactly when none of the first
`fuel` values of `current` is `start` or lacks its incoming edge, and the next one is not
`start` either. -/
theorem unwind_diverges_iff (g : graph) (previous : Int → Int) (start : Int) :
    ∀ (fuel : Nat) (current : Int) (path : List path_step),
      unwind g previous start fuel current path = outcome.diverges ↔
        (∀ k, k < fuel → previous^[k] current ≠ start ∧
          g.get_edge (previous (previous^[k] current)) (previous^[k] current) ≠ none) ∧
        previous^[fuel] current ≠ start := by
  intro fuel
  induction fuel with
  | zero =>
    intro current path
    unfold unwind
    by_cases h : current = start
    · simp [h]
    · simp [h]
  | succ fuel ih =>
    intro current path
    unfold unwind
    by_cases h : current = start
    · rw [if_pos h]
      constructor
      · intro h1; cases h1
      · intro h1; exact absurd h (h1.1 0 (Nat.succ_pos _)).1
    · rw [if_neg h]
      cases he : g.get_edge (previous current) current with
      | none =>
        constructor
        · intro h1; cases h1
        · intro h1; exact absurd he (h1.1 0 (Nat.succ_pos _)).2
      | some e =>
        simp only
        rw [ih]
        constructor
        · rintro ⟨h1, h2⟩
          refine ⟨?_, ?_⟩
          · intro k hk
            cases k with
            | zero => exact ⟨h, by simp [he]⟩
            | succ k =>
              rw [Function.iterate_succ_apply]
              exact h1 k (Nat.lt_of_succ_lt_succ hk)
          · rw [Function.iterate_succ_apply]; exact h2
        · rintro ⟨h1, h2⟩
          refine ⟨?_, ?_⟩
          · intro k hk
            have := h1 (k + 1) (Nat.succ_lt_succ hk)
            rwa [Function.iterate_succ_apply] at this
          · rwa [Function.iterate_succ_apply] at h2

/-- Once the sequence of iterates repeats a value, every later iterate is an earlier one. -/
theorem iterate_eventually_periodic (f : Int → Int) (c : Int) (i j : Nat) (hij : i < j)
    (heq : f^[i] c = f^[j] c) : ∀ k, ∃ k2, k2 < j ∧ f^[k] c = f^[k2] c := by
  intro k
  induction k using Nat.strong_induction_on with
  | _ k ih =>
    by_cases hk : k < j
    · exact ⟨k, hk, rfl⟩
    · obtain ⟨k2, hk2, h2⟩ := ih (i + (k - j)) (by omega)
      refine ⟨k2, hk2, ?_⟩
      rw [← h2]
      have e1 : k = (k - j) + j := by omega
      have e2 : i + (k - j) = (k - j) + i := by omega
      rw [e2, Function.iterate_add_apply, heq, ← Function.iterate_add_apply, ← e1]

theorem relax_edge_previous (Q : Int → Prop) (current : Int) (st : search_maps × Bool) (e : edge)
    (hc : Q current) (h : ∀ v, Q (st.1.previous v)) :
    ∀ v, Q ((relax_edge current st e).1.previous v) := by
  intro v
  unfold relax_edge
  dsimp only
  split
  · dsimp only [map_set]
    split
    · exact hc
    · exact h v
  · exact h v

theorem relax_previous (Q : Int → Prop) (g : graph) (current : Int) (m : search_maps)
    (hc : Q current) (h : ∀ v, Q (m.previous v)) :
    ∀ v, Q ((relax g current m).1.previous v) := by
  unfold relax
  generalize g.get_edges current = es
  generalize hst : (m, false) = st
  have h2 : ∀ v, Q (st.1.previous v) := by rw [← hst]; exact h
  clear hst h
  induction es generalizing st with
  | nil => exact h2
  | cons e es ih =>
    rw [List.foldl_cons]
    exact ih _ (relax_edge_previous Q current st e hc h2)

/-- Every value of `previous` at the end of a run is a value it had before or an element of the
queue. -/
theorem all_runs_previous (Q : Int → Prop) (g : graph) :
    ∀ (fuel : Nat) (m : search_maps) (q : List Int),
      (∀ v, Q (m.previous v)) → (∀ c ∈ q, Q c) →
      ∀ r ∈ all_runs g fuel m q, ∀ v, Q (r.previous v) := by
  intro fuel
  induction fuel with
  | zero =>
    intro m q hm _ r hr
    cases q with
    | nil => simp [all_runs] at hr; rw [hr]; exact hm
    | cons a t => simp [all_runs] at hr
  | succ fuel ih =>
    intro m q hm hq r hr
    cases q with
    | nil => simp [all_runs] at hr; rw [hr]; exact hm
    | cons a t =>
      simp only [all_runs, List.mem_flatMap, List.mem_filter] at hr
      obtain ⟨c, ⟨hc, _⟩, hr⟩ := hr
      exact ih _ _ (relax_previous Q g c m (hq c hc) hm)
        (fun x hx => hq x (List.mem_of_mem_erase hx)) r hr

theorem mem_init_queue (nodes : Nat) (start x : Int) (h : x ∈ init_queue nodes start) :
    x = start ∨ (0 ≤ x ∧ x < nodes) := by
  unfold init_queue at h
  rcases List.mem_cons.1 h with h1 | h1
  · exact Or.inl h1
  · right
    simp only [List.mem_filter, List.mem_map, List.mem_range] at h1
    obtain ⟨⟨i, hi, rfl⟩, _⟩ := h1
    exact ⟨Int.ofNat_nonneg _, by simpa using hi⟩

/-- The values `previous` can take after the search: `0` (an absent key), `start`, or a node. -/
theorem all_runs_previous_range (g : graph) (start : Int) :
    ∀ r ∈ all_runs g (init_queue g.get_nodes start).length
        ⟨init_dist g.get_nodes start, fun _ => 0⟩ (init_queue g.get_nodes start),
      ∀ v, r.previous v = 0 ∨ r.previous v = start ∨
        (0 ≤ r.previous v ∧ r.previous v < g.get_nodes) := by
  apply all_runs_previous (fun x => x = 0 ∨ x = start ∨ (0 ≤ x ∧ x < g.get_nodes))
  · intro v; exact Or.inl rfl
  · intro c hc; exact Or.inr (mem_init_queue _ _ c hc)

/-- A map whose values are `0`, `start` or one of `nodes` nodes: if the unwinding loop has not
reached `start` after `nodes + 2` tests, it never does. -/
theorem unwind_bound_exact (g : graph) (previous : Int → Int) (start stop : Int) (nodes : Nat)
    (hrange : ∀ v, previous v = 0 ∨ previous v = start ∨ (0 ≤ previous v ∧ previous v < nodes))
    (h : unwind g previous start (nodes + 2) stop [] = outcome.diverges) :
    ∀ fuel, unwind g previous start fuel stop [] = outcome.diverges := by
  rw [unwind_diverges_iff] at h
  obtain ⟨h1, h2⟩ := h
  have hne : ∀ k, k ≤ nodes + 2 → previous^[k] stop ≠ start := by
    intro k hk
    rcases Nat.lt_or_ge k (nodes + 2) with hlt | hge
    · exact (h1 k hlt).1
    · have : k = nodes + 2 := le_antisymm hk hge
      rw [this]; exact h2
  -- pigeonhole on the values at positions 1 .. nodes + 2
  have hmaps : ∀ k ∈ Finset.Icc 1 (nodes + 2),
      previous^[k] stop ∈ insert (0 : Int) ((Finset.range nodes).image (fun i : Nat => (i : Int))) := by
    intro k hk
    rw [Finset.mem_Icc] at hk
    obtain ⟨k0, rfl⟩ : ∃ k0, k = k0 + 1 := ⟨k - 1, by omega⟩
    have hk2 := hne (k0 + 1) hk.2
    rw [Function.iterate_succ_apply'] at hk2 ⊢
    rcases hrange (previous^[k0] stop) with h0 | hs | ⟨hlo, hhi⟩
    · rw [h0]; exact Finset.mem_insert_self _ _
    · exact absurd hs hk2
    · apply Finset.mem_insert_of_mem
      rw [Finset.mem_image]
      refine ⟨(previous (previous^[k0] stop)).toNat, ?_, Int.toNat_of_nonneg hlo⟩
      rw [Finset.mem_range]
      omega
  have hcard : (insert (0 : Int) ((Finset.range nodes).image (fun i : Nat => (i : Int)))).card
      < (Finset.Icc 1 (nodes + 2)).card := by
    have c1 := Finset.card_insert_le (0 : Int)
      ((Finset.range nodes).image (fun i : Nat => (i : Int)))
    have c2 : ((Finset.range nodes).image (fun i : Nat => (i : Int))).card ≤ nodes := by
      have := Finset.card_image_le (s := Finset.range nodes) (f := fun i : Nat => (i : Int))
      simpa using this
    simp only [Nat.card_Icc]
    omega
  obtain ⟨i, hi, j, hj, hij, heq⟩ := Finset.exists_ne_map_eq_of_card_lt_of_maps_to hcard hmaps
  rw [Finset.mem_Icc] at hi hj
  have hper : ∀ k, ∃ k2, k2 < nodes + 2 ∧ previous^[k] stop = previous^[k2] stop := by
    rcases Nat.lt_or_gt_of_ne hij with hlt | hgt
    · intro k
      obtain ⟨k2, hk2, e⟩ := iterate_eventually_periodic previous stop i j hlt heq k
      exact ⟨k2, by omega, e⟩
    · intro k
      obtain ⟨k2, hk2, e⟩ := iterate_eventually_periodic previous stop j i hgt heq.symm k
      exact ⟨k2, by omega, e⟩
  intro fuel
  rw [unwind_diverges_iff]
  refine ⟨?_, ?_⟩
  · intro k _
    obtain ⟨k2, hk2, e⟩ := hper k
    rw [e]; exact h1 k2 hk2
  · obtain ⟨k2, hk2, e⟩ := hper fuel
    rw [e]; exact (h1 k2 hk2).1

/-- An outcome other than `diverges` does not change when the unwinding loop is given more
tests. -/
theorem unwind_fuel_mono (g : graph) (previous : Int → Int) (start : Int) :
    ∀ (fuel extra : Nat) (current : Int) (path : List path_step),
      unwind g previous start fuel current path ≠ outcome.diverges →
      unwind g previous start (fuel + extra) current path =
        unwind g previous start fuel current path := by
  intro fuel
  induction fuel with
  | zero =>
    intro extra current path h
    unfold unwind at h
    by_cases hc : current = start
    · cases extra with
      | zero => rfl
      | succ n => simp [unwind, hc]
    · rw [if_neg hc] at h; exact absurd rfl h
  | succ fuel ih =>
    intro extra current path h
    have e1 : fuel + 1 + extra = (fuel + extra) + 1 := by omega
    rw [e1]
    unfold unwind at h ⊢
    by_cases hc : current = start
    · simp only [if_pos hc]
    · simp only [if_neg hc] at h ⊢
      cases he : g.get_edge (previous current) current with
      | none => rfl
      | some e =>
        rw [he] at h
        exact ih extra _ _ h

theorem finish_false_diverges (g : graph) (start original_start : Int) (o : outcome)
    (h : finish g start original_start false o = outcome.diverges) : o = outcome.diverges := by
  cases o with
  | returns path => simp [finish] at h
  | undefined => simp [finish] at h
  | diverges => rfl

/-- With a lawful heap the search terminates, and its maps are those of an enumerated run. -/
theorem search_mem (H : heap_ops) (hH : H.lawful) (g : graph) (start : Int) :
    ∃ m, search H g start = some m ∧
      m ∈ all_runs g (init_queue g.get_nodes start).length
        ⟨init_dist g.get_nodes start, fun _ => 0⟩ (init_queue g.get_nodes start) := by
  obtain ⟨r, hr, hloop⟩ := search_loop_refines H hH g
    (H.make_heap (comparator (init_dist g.get_nodes start))
      (init_queue g.get_nodes start)).length
    ⟨init_dist g.get_nodes start, fun _ => 0⟩
    (H.make_heap (comparator (init_dist g.get_nodes start)) (init_queue g.get_nodes start))
    (hH.make_is_heap _ _) (le_refl _)
  have hperm := hH.make_perm (init_dist g.get_nodes start) (init_queue g.get_nodes start)
  refine ⟨r, hloop, ?_⟩
  rw [hperm.length_eq] at hr
  exact all_runs_perm g _ _ _ _ hperm r hr

/-- The bound of `get_nodes + 2` tests in `search_and_unwind` loses nothing: after a search
with a lawful heap, an unwinding loop that has not reached `start` within the bound never
reaches it. -/
theorem unwinding_bound_exact (H : heap_ops) (hH : H.lawful) (g : graph) (start stop : Int)
    (m : search_maps) (hm : search H g start = some m)
    (h : unwind g m.previous start (g.get_nodes + 2) stop [] = outcome.diverges) :
    ∀ fuel, unwind g m.previous start fuel stop [] = outcome.diverges := by
  obtain ⟨r, hr, hmem⟩ := search_mem H hH g start
  rw [hm] at hr
  cases hr
  exact unwind_bound_exact g m.previous start stop g.get_nodes
    (all_runs_previous_range g start m hmem) h

/-! ## Lemmas: relaxation without overflow -/

theorem wrap_int_eq (x : Int) (h0 : 0 ≤ x) (h1 : x ≤ INT_MAX) : wrap_int x = x := by
  unfold wrap_int
  unfold INT_MAX at h1
  omega

theorem relaxed_refl (u du : Int) (m : search_maps) (h : m.dist u = du) :
    relaxed u du [] m m :=
  ⟨h, fun _ => le_refl _, fun _ he => absurd he (List.not_mem_nil _), fun _ => Or.inl ⟨rfl, rfl⟩⟩

/-- One execution of the loop body of lines 58-66, when the sum does not overflow. -/
theorem relax_edge_relaxed (u du : Int) (st : search_maps × Bool) (e : edge)
    (hu : st.1.dist u = du) (hc : 0 ≤ e.cost) (h0 : 0 ≤ du) (hmax : du + e.cost ≤ INT_MAX) :
    relaxed u du [e] st.1 (relax_edge u st e).1 := by
  have hw : wrap_int (st.1.dist u + e.cost) = du + e.cost := by
    rw [hu]; exact wrap_int_eq _ (by omega) hmax
  unfold relax_edge
  dsimp only
  rw [hw]
  by_cases hlt : du + e.cost < st.1.dist e.end_
  · rw [if_pos hlt]
    refine ⟨?_, ?_, ?_, ?_⟩
    · by_cases h : u = e.end_
      · rw [← h, hu] at hlt; omega
      · simp only [map_set, if_neg h]; exact hu
    · intro v
      by_cases h : v = e.end_
      · simp only [map_set, if_pos h]; rw [h]; exact le_of_lt hlt
      · simp only [map_set, if_neg h]; exact le_refl _
    · intro e2 he2
      rw [List.mem_singleton.1 he2]
      simp only [map_set, if_true]
      exact le_refl _
    · intro v
      by_cases h : v = e.end_
      · right
        subst h
        refine ⟨?_, ?_, e, List.mem_singleton.2 rfl, rfl, ?_⟩
        · simp only [map_set, if_true]; exact hlt
        · simp only [map_set, if_true]
        · simp only [map_set, if_true]
      · left
        constructor
        · simp only [map_set, if_neg h]
        · simp only [map_set, if_neg h]
  · rw [if_neg hlt]
    refine ⟨hu, fun _ => le_refl _, ?_, fun _ => Or.inl ⟨rfl, rfl⟩⟩
    intro e2 he2
    rw [List.mem_singleton.1 he2]
    exact not_lt.1 hlt

/-- Two relaxations in sequence. -/
theorem relaxed_trans (u du : Int) (es1 es2 : List edge) (m1 m2 m3 : search_maps)
    (h12 : relaxed u du es1 m1 m2) (h23 : relaxed u du es2 m2 m3) :
    relaxed u du (es1 ++ es2) m1 m3 := by
  refine ⟨h23.self, fun v => le_trans (h23.le v) (h12.le v), ?_, ?_⟩
  · intro e he
    rcases List.mem_append.1 he with h | h
    · exact le_trans (h23.le _) (h12.edges e h)
    · exact h23.edges e h
  · intro v
    rcases h23.cases v with ⟨hd, hp⟩ | ⟨hd, hp, e, he, hev, hde⟩
    · rcases h12.cases v with ⟨hd1, hp1⟩ | ⟨hd1, hp1, e, he, hev, hde⟩
      · left; exact ⟨hd.trans hd1, hp.trans hp1⟩
      · right
        exact ⟨by rw [hd]; exact hd1, hp.trans hp1, e, List.mem_append_left _ he, hev,
          by rw [hd]; exact hde⟩
    · right
      exact ⟨lt_of_lt_of_le hd (h12.le v), hp, e, List.mem_append_right _ he, hev, hde⟩

theorem relax_fold_relaxed (u du : Int) (h0 : 0 ≤ du) :
    ∀ (es : List edge) (st : search_maps × Bool), st.1.dist u = du →
      (∀ e ∈ es, 0 ≤ e.cost ∧ du + e.cost ≤ INT_MAX) →
      relaxed u du es st.1 (es.foldl (relax_edge u) st).1 := by
  intro es
  induction es with
  | nil => intro st hu _; exact relaxed_refl u du st.1 hu
  | cons e es ih =>
    intro st hu hes
    rw [List.foldl_cons]
    have h1 := relax_edge_relaxed u du st e hu (hes e (List.mem_cons_self _ _)).1 h0
      (hes e (List.mem_cons_self _ _)).2
    have h2 := ih (relax_edge u st e) h1.self
      (fun e2 he2 => hes e2 (List.mem_cons_of_mem _ he2))
    exact relaxed_trans u du [e] es _ _ _ h1 h2

/-- The loop of lines 53-67 for the popped node `u`, when no sum overflows. -/
theorem relax_relaxed (g : graph) (u : Int) (m : search_maps) (h0 : 0 ≤ m.dist u)
    (hes : ∀ e ∈ g.get_edges u, 0 ≤ e.cost ∧ m.dist u + e.cost ≤ INT_MAX) :
    relaxed u (m.dist u) (g.get_edges u) m (relax g u m).1 :=
  relax_fold_relaxed u (m.dist u) h0 (g.get_edges u) (m, false) rfl hes

/-! ## Lemmas: the invariant of the search -/

theorem get_edges_mem (g : graph) (v : Int) (e : edge) (h : e ∈ g.get_edges v) :
    ∃ es ∈ g.edges, e ∈ es := by
  unfold graph.get_edges at h
  split at h
  · exact absurd h (List.not_mem_nil _)
  · rw [List.getD_eq_getElem?_getD] at h
    cases hes : g.edges[v.toNat]? with
    | none => rw [hes] at h; exact absurd h (List.not_mem_nil _)
    | some es =>
      rw [hes] at h
      exact ⟨es, List.getElem?_mem hes, h⟩

theorem bounded_edge (g : graph) (B : Int) (hg : g.bounded B) (v : Int) (e : edge)
    (h : e ∈ g.get_edges v) : is_node g.get_nodes e.end_ ∧ 0 ≤ e.cost ∧ e.cost ≤ B := by
  obtain ⟨es, hes, he⟩ := get_edges_mem g v e h
  exact ⟨hg.ends es hes e he, hg.costs es hes e he⟩

theorem is_min_le (d : Int → Int) (q : List Int) (u : Int) (h : is_min d q u = true) :
    ∀ x ∈ q, d u ≤ d x := by
  unfold is_min at h
  rw [List.all_eq_true] at h
  intro x hx
  simpa using h x hx

theorem scaled_bound (B : Int) (hB : 0 ≤ B) (a b : Nat) (h : a ≤ b) :
    (a : Int) * B ≤ (b : Int) * B :=
  mul_le_mul_of_nonneg_right (by exact_mod_cast h) hB

/-- When every queued node is still at `INT_MAX`, the popped nodes are closed under the edges of
the graph: every walk from the start ends at a popped node. -/
theorem popped_closed (g : graph) (s B : Int) (m : search_maps) (q : List Int) (k : Nat)
    (rank : Int → Nat) (hg : g.bounded B) (inv : search_inv g s B m q k rank)
    (hs : s ∉ q) (hq : q ≠ []) (hmax : ∀ x ∈ q, m.dist x = INT_MAX) :
    ∀ v w, walk g s v w → is_node g.get_nodes v ∧ v ∉ q := by
  intro v w hw
  induction hw with
  | refl => exact ⟨inv.start_node, hs⟩
  | @step v0 w0 e _ he ih =>
    obtain ⟨hv, hvq⟩ := ih
    obtain ⟨hend, _, hcB⟩ := bounded_edge g B hg v0 e he
    refine ⟨hend, ?_⟩
    intro hin
    have h1 := inv.popped_edges v0 hv hvq e he
    have h2 := inv.popped_finite v0 hv hvq
    have h3 : m.dist v0 ≤ (k : Int) * B := by
      rcases inv.bound v0 hv with h | h
      · omega
      · exact h
    have hk : k + 1 ≤ g.get_nodes := by
      have := inv.count
      have : 0 < q.length := List.length_pos.2 hq
      omega
    have h4 := scaled_bound B hg.bound_nonneg (k + 1) g.get_nodes hk
    have h5 := hg.small
    have h6 := hmax e.end_ hin
    push_cast at h4
    linarith

/-- The node popped from the queue has a cost below `INT_MAX`, in fact at most `k * B`. -/
theorem popped_cost_bound (g : graph) (s B : Int) (m : search_maps) (q : List Int) (k : Nat)
    (rank : Int → Nat) (hg : g.bounded B)
    (hreach : ∀ v, is_node g.get_nodes v → ∃ w, walk g s v w)
    (inv : search_inv g s B m q k rank) (u : Int) (hu : u ∈ q)
    (hmin : is_min m.dist q u = true) : m.dist u ≤ (k : Int) * B := by
  have hminle := is_min_le _ _ _ hmin
  have hunode := inv.q_nodes u hu
  have hk : k + 1 ≤ g.get_nodes := by
    have := inv.count
    have : 0 < q.length := List.length_pos.2 (List.ne_nil_of_mem hu)
    omega
  have h4 := scaled_bound B hg.bound_nonneg (k + 1) g.get_nodes hk
  have h5 := hg.small
  have hB := hg.bound_nonneg
  push_cast at h4
  rcases inv.bound u hunode with h | h
  · exfalso
    by_cases hs : s ∈ q
    · have h1 := hminle s hs
      rw [inv.dist_start, h] at h1
      unfold INT_MAX at h1
      omega
    · have hall : ∀ x ∈ q, m.dist x = INT_MAX := by
        intro x hx
        have h1 := hminle x hx
        rcases inv.bound x (inv.q_nodes x hx) with h2 | h2
        · exact h2
        · rw [h] at h1; linarith
      obtain ⟨w, hw⟩ := hreach u hunode
      exact (popped_closed g s B m q k rank hg inv hs (List.ne_nil_of_mem hu) hall u w hw).2 hu
  · exact h

/-- One iteration of the search loop keeps the invariant. -/
theorem search_inv_step (g : graph) (s B : Int) (m : search_maps) (q : List Int) (k : Nat)
    (rank : Int → Nat) (hg : g.bounded B)
    (hreach : ∀ v, is_node g.get_nodes v → ∃ w, walk g s v w)
    (inv : search_inv g s B m q k rank) (u : Int) (hu : u ∈ q)
    (hmin : is_min m.dist q u = true) :
    search_inv g s B (relax g u m).1 (q.erase u) (k + 1)
      (fun v => if v = u then k else rank v) := by
  have hminle := is_min_le _ _ _ hmin
  have hunode := inv.q_nodes u hu
  have hk : k + 1 ≤ g.get_nodes := by
    have := inv.count
    have : 0 < q.length := List.length_pos.2 (List.ne_nil_of_mem hu)
    omega
  have h4 := scaled_bound B hg.bound_nonneg (k + 1) g.get_nodes hk
  have h5 := hg.small
  have hB := hg.bound_nonneg
  have hcast : ((k + 1 : Nat) : Int) * B = (k : Int) * B + B := by push_cast; ring
  rw [hcast] at h4
  have hdu := popped_cost_bound g s B m q k rank hg hreach inv u hu hmin
  have hdu0 := inv.nonneg u
  have hes : ∀ e ∈ g.get_edges u, 0 ≤ e.cost ∧ m.dist u + e.cost ≤ INT_MAX := by
    intro e he
    obtain ⟨_, h0, hcB⟩ := bounded_edge g B hg u e he
    exact ⟨h0, by linarith⟩
  have R := relax_relaxed g u m hdu0 hes
  -- a node whose cost is at most that of `u` keeps its cost and predecessor
  have hkeep : ∀ v, m.dist v ≤ m.dist u →
      (relax g u m).1.dist v = m.dist v ∧ (relax g u m).1.previous v = m.previous v := by
    intro v hv
    rcases R.cases v with h | ⟨hlt, _, e, he, _, hde⟩
    · exact h
    · exfalso
      have := (hes e he).1
      linarith
  have hsplit : ∀ v, v ∉ q.erase u → v = u ∨ v ∉ q := by
    intro v hv
    by_cases h : v = u
    · exact Or.inl h
    · exact Or.inr (fun hin => hv ((List.mem_erase_of_ne h).2 hin))
  have hpop_le : ∀ v, is_node g.get_nodes v → v ∉ q.erase u → m.dist v ≤ m.dist u := by
    intro v hv hvq
    rcases hsplit v hvq with h | h
    · rw [h]
    · exact inv.popped_le v hv h u hu
  have hs_first : s ∈ q → u = s := by
    intro hs
    by_contra hne
    have h1 := (inv.fresh hs u hunode).2 hne
    have h2 := hminle s hs
    rw [inv.dist_start, h1] at h2
    unfold INT_MAX at h2
    omega
  refine
    { count := ?_, q_nodes := ?_, q_nodup := inv.q_nodup.erase u, start_node := inv.start_node,
      dist_start := ?_, fresh := ?_, nonneg := ?_, bound := ?_, popped_le := ?_,
      popped_edges := ?_, popped_finite := ?_, tree := ?_, rank_queue := ?_, rank_popped := ?_ }
  · have h1 := List.length_erase_of_mem hu
    have h2 := inv.count
    have h3 : 0 < q.length := List.length_pos.2 (List.ne_nil_of_mem hu)
    omega
  · intro v hv
    exact inv.q_nodes v (List.mem_of_mem_erase hv)
  · rw [(hkeep s (by rw [inv.dist_start]; exact hdu0)).1]
    exact inv.dist_start
  · intro hs
    exfalso
    have h1 := hs_first (List.mem_of_mem_erase hs)
    rw [h1] at hs
    exact (List.Nodup.not_mem_erase inv.q_nodup) hs
  · intro v
    rcases R.cases v with ⟨h, _⟩ | ⟨_, _, e, he, _, hde⟩
    · rw [h]; exact inv.nonneg v
    · rw [hde]
      have := (hes e he).1
      linarith
  · intro v hv
    rw [hcast]
    rcases R.cases v with ⟨h, _⟩ | ⟨_, _, e, he, _, hde⟩
    · rw [h]
      rcases inv.bound v hv with h1 | h1
      · exact Or.inl h1
      · exact Or.inr (by linarith)
    · right
      rw [hde]
      obtain ⟨_, _, hcB⟩ := bounded_edge g B hg u e he
      linarith
  · intro v hv hvq x hx
    have hxq := List.mem_of_mem_erase hx
    rw [(hkeep v (hpop_le v hv hvq)).1]
    have hvu := hpop_le v hv hvq
    rcases R.cases x with ⟨h, _⟩ | ⟨_, _, e, he, _, hde⟩
    · rw [h]
      exact le_trans hvu (hminle x hxq)
    · rw [hde]
      have := (hes e he).1
      linarith
  · intro v hv hvq e he
    rw [(hkeep v (hpop_le v hv hvq)).1]
    rcases hsplit v hvq with h | h
    · rw [h] at he ⊢
      exact R.edges e he
    · exact le_trans (R.le _) (inv.popped_edges v hv h e he)
  · intro v hv hvq
    rw [(hkeep v (hpop_le v hv hvq)).1]
    rcases hsplit v hvq with h | h
    · rw [h]; linarith
    · exact inv.popped_finite v hv h
  · intro v hv hvs hfin
    rcases R.cases v with ⟨hd, hp⟩ | ⟨hlt, hp, e, he, hev, hde⟩
    · rw [hd] at hfin
      obtain ⟨hpn, hpq, hrk, e, he, hev, hde⟩ := inv.tree v hv hvs hfin
      have hpu : m.previous v ≠ u := fun h => hpq (h ▸ hu)
      rw [hp]
      refine ⟨hpn, fun h => hpq (List.mem_of_mem_erase h), ?_, e, he, hev, ?_⟩
      · simp only [if_neg hpu]
        by_cases hvu : v = u
        · rw [if_pos hvu]
          exact inv.rank_popped _ hpn hpq
        · rw [if_neg hvu]
          exact hrk
      · rw [hd, (hkeep _ (inv.popped_le _ hpn hpq u hu)).1]
        exact hde
    · have hvu : v ≠ u := by
        intro h
        rw [h, R.self] at hlt
        exact lt_irrefl _ hlt
      have hvq : v ∈ q := by
        by_contra hvq
        have := (hkeep v (inv.popped_le v hv hvq u hu)).1
        rw [this] at hlt
        exact lt_irrefl _ hlt
      rw [hp]
      refine ⟨hunode, List.Nodup.not_mem_erase inv.q_nodup, ?_, e, he, hev, ?_⟩
      · simp only [if_true, if_neg hvu]
        rw [inv.rank_queue v hvq]
        omega
      · rw [hde, R.self]
  · intro v hv
    have hvq := List.mem_of_mem_erase hv
    have hvu : v ≠ u := fun h => (List.Nodup.not_mem_erase inv.q_nodup) (h ▸ hv)
    simp only [if_neg hvu]
    exact inv.rank_queue v hvq
  · intro v hv hvq
    rcases hsplit v hvq with h | h
    · simp only [if_pos h]
      omega
    · have hvu : v ≠ u := fun h2 => h (h2 ▸ hu)
      simp only [if_neg hvu]
      have := inv.rank_popped v hv h
      omega

theorem init_dist_eq (nodes : Nat) (start v : Int) :
    init_dist nodes start v =
      if v = start then 0 else if is_node nodes v then INT_MAX else 0 := by
  unfold init_dist
  induction nodes with
  | zero =>
    simp only [List.range_zero, List.foldl_nil, map_set, is_node]
    by_cases h : v = start
    · simp [h]
    · have h2 : ¬ (0 ≤ v ∧ v < (0 : Int)) := by
        intro hh; have := hh.1; have := hh.2; omega
      simp only [h, if_false, Nat.cast_zero]
      rw [if_neg h2]
  | succ n ih =>
    rw [List.range_succ, List.foldl_append, List.foldl_cons, List.foldl_nil]
    by_cases hn : Int.ofNat n = start
    · rw [if_pos hn, ih]
      by_cases h : v = start
      · simp [h]
      · rw [if_neg h, if_neg h]
        have : is_node n v ↔ is_node (n + 1) v := by
          unfold is_node
          have : v ≠ (n : Int) := fun hv => h (hv.trans hn)
          constructor
          · intro hh; exact ⟨hh.1, by push_cast; omega⟩
          · intro hh; have := hh.2; push_cast at this; exact ⟨hh.1, by omega⟩
        by_cases h2 : is_node n v
        · rw [if_pos h2, if_pos (this.1 h2)]
        · rw [if_neg h2, if_neg (fun hh => h2 (this.2 hh))]
    · rw [if_neg hn]
      simp only [map_set]
      by_cases h : v = Int.ofNat n
      · rw [if_pos h]
        have hvs : v ≠ start := fun hv => hn (h ▸ hv)
        have hnode : is_node (n + 1) v := by
          unfold is_node; rw [h]; push_cast
          exact ⟨Int.ofNat_nonneg n, by simp⟩
        rw [if_neg hvs, if_pos hnode]
      · rw [if_neg h]
        rw [ih]
        by_cases hvs : v = start
        · rw [if_pos hvs, if_pos hvs]
        · rw [if_neg hvs, if_neg hvs]
          have : is_node n v ↔ is_node (n + 1) v := by
            unfold is_node
            have : v ≠ (n : Int) := h
            constructor
            · intro hh; exact ⟨hh.1, by push_cast; omega⟩
            · intro hh; have := hh.2; push_cast at this; exact ⟨hh.1, by omega⟩
          by_cases h2 : is_node n v
          · rw [if_pos h2, if_pos (this.1 h2)]
          · rw [if_neg h2, if_neg (fun hh => h2 (this.2 hh))]

theorem node_mem_range (nodes : Nat) (v : Int) (h : is_node nodes v) :
    v ∈ (List.range nodes).map Int.ofNat := by
  rw [List.mem_map]
  refine ⟨v.toNat, ?_, ?_⟩
  · rw [List.mem_range]; have := h.1; have := h.2; omega
  · exact Int.toNat_of_nonneg h.1

theorem range_nodes_nodup (nodes : Nat) : ((List.range nodes).map Int.ofNat).Nodup :=
  (List.nodup_range nodes).map (fun a b h => by simpa using h)

theorem node_mem_init_queue (nodes : Nat) (start v : Int) (h : is_node nodes v) :
    v ∈ init_queue nodes start := by
  unfold init_queue
  by_cases hv : v = start
  · rw [hv]; exact List.mem_cons_self _ _
  · exact List.mem_cons_of_mem _
      (List.mem_filter.2 ⟨node_mem_range nodes v h, by simpa using hv⟩)

theorem init_queue_nodup (nodes : Nat) (start : Int) : (init_queue nodes start).Nodup := by
  unfold init_queue
  rw [List.nodup_cons]
  refine ⟨?_, (range_nodes_nodup nodes).filter _⟩
  intro h
  have := (List.mem_filter.1 h).2
  simp at this

theorem init_queue_length (nodes : Nat) (start : Int) (h : is_node nodes start) :
    (init_queue nodes start).length = nodes := by
  unfold init_queue
  have hmem := node_mem_range nodes start h
  have hnd := range_nodes_nodup nodes
  have herase : ((List.range nodes).map Int.ofNat).erase start =
      ((List.range nodes).map Int.ofNat).filter (fun i => decide (i ≠ start)) := by
    rw [List.Nodup.erase_eq_filter hnd]
    congr 1
    funext i
    by_cases hi : i = start <;> simp [hi]
  rw [List.length_cons, ← herase, List.length_erase_of_mem hmem]
  have : 0 < ((List.range nodes).map Int.ofNat).length := List.length_pos_of_mem hmem
  simp only [List.length_map, List.length_range] at this ⊢
  omega

/-- The invariant holds when the search loop is entered. -/
theorem search_inv_init (g : graph) (s B : Int) (hs : is_node g.get_nodes s) :
    search_inv g s B ⟨init_dist g.get_nodes s, fun _ => 0⟩ (init_queue g.get_nodes s) 0
      (fun _ => g.get_nodes) := by
  have hall : ∀ v, is_node g.get_nodes v → v ∈ init_queue g.get_nodes s :=
    fun v hv => node_mem_init_queue _ s v hv
  refine
    { count := ?_, q_nodes := ?_, q_nodup := init_queue_nodup _ _, start_node := hs,
      dist_start := ?_, fresh := ?_, nonneg := ?_, bound := ?_, popped_le := ?_,
      popped_edges := ?_, popped_finite := ?_, tree := ?_, rank_queue := ?_, rank_popped := ?_ }
  · rw [init_queue_length _ _ hs]; omega
  · intro v hv
    rcases mem_init_queue _ _ v hv with h | h
    · rw [h]; exact hs
    · exact h
  · simp [init_dist_eq]
  · intro _ v hv
    refine ⟨hall v hv, fun hne => ?_⟩
    simp only [init_dist_eq]
    rw [if_neg hne, if_pos hv]
  · intro v
    simp only [init_dist_eq]
    split
    · exact le_refl _
    · split
      · unfold INT_MAX; omega
      · exact le_refl _
  · intro v hv
    simp only [init_dist_eq]
    by_cases h : v = s
    · right; rw [if_pos h]; simp
    · left; rw [if_neg h, if_pos hv]
  · intro v hv hvq; exact absurd (hall v hv) hvq
  · intro v hv hvq; exact absurd (hall v hv) hvq
  · intro v hv hvq; exact absurd (hall v hv) hvq
  · intro v hv hvs hfin
    simp only [init_dist_eq] at hfin
    rw [if_neg hvs, if_pos hv] at hfin
    exact absurd hfin (lt_irrefl _)
  · intro _ _; rfl
  · intro v hv hvq; exact absurd (hall v hv) hvq

/-- Every run of the search loop ends with the invariant holding on the empty queue. -/
theorem all_runs_inv (g : graph) (s B : Int) (hg : g.bounded B)
    (hreach : ∀ v, is_node g.get_nodes v → ∃ w, walk g s v w) :
    ∀ (fuel : Nat) (m : search_maps) (q : List Int) (k : Nat) (rank : Int → Nat),
      search_inv g s B m q k rank → q.length ≤ fuel →
      ∀ r ∈ all_runs g fuel m q, ∃ rank2, search_inv g s B r [] g.get_nodes rank2 := by
  intro fuel
  induction fuel with
  | zero =>
    intro m q k rank inv hlen r hr
    have hq : q = [] := List.eq_nil_of_length_eq_zero (Nat.le_zero.1 hlen)
    subst hq
    simp [all_runs] at hr
    subst hr
    have hk : k = g.get_nodes := by have := inv.count; simpa using this
    subst hk
    exact ⟨rank, inv⟩
  | succ fuel ih =>
    intro m q k rank inv hlen r hr
    cases q with
    | nil =>
      simp [all_runs] at hr
      subst hr
      have hk : k = g.get_nodes := by have := inv.count; simpa using this
      subst hk
      exact ⟨rank, inv⟩
    | cons a t =>
      simp only [all_runs, List.mem_flatMap, List.mem_filter] at hr
      obtain ⟨u, ⟨hu, hmin⟩, hr⟩ := hr
      have inv2 := search_inv_step g s B m (a :: t) k rank hg hreach inv u hu hmin
      refine ih _ _ _ _ inv2 ?_ r hr
      rw [List.length_erase_of_mem hu]
      simp only [List.length_cons] at hlen ⊢
      omega

/-! ## Lemmas: routes and walks -/

theorem get_edge_some (g : graph) (u x : Int) (e : edge) (h : g.get_edge u x = some e) :
    e ∈ g.get_edges u ∧ e.end_ = x := by
  unfold graph.get_edge at h
  exact ⟨List.mem_of_find?_eq_some h, by simpa using List.find?_some h⟩

theorem get_edges_nodup (g : graph) (B : Int) (hg : g.bounded B) (u : Int) :
    ((g.get_edges u).map edge.end_).Nodup := by
  unfold graph.get_edges
  split
  · exact List.nodup_nil
  · rw [List.getD_eq_getElem?_getD]
    cases hes : g.edges[u.toNat]? with
    | none => exact List.nodup_nil
    | some es => exact hg.simple es (List.getElem?_mem hes)

/-- On a graph without parallel edges, `get_edge` finds each edge from its end points. -/
theorem get_edge_of_mem (g : graph) (B : Int) (hg : g.bounded B) (u : Int) (e : edge)
    (h : e ∈ g.get_edges u) : g.get_edge u e.end_ = some e := by
  cases hf : g.get_edge u e.end_ with
  | none =>
    unfold graph.get_edge at hf
    rw [List.find?_eq_none] at hf
    have := hf e h
    simp at this
  | some e2 =>
    obtain ⟨h2, hend⟩ := get_edge_some g u e.end_ e2 hf
    rw [List.inj_on_of_nodup_map (get_edges_nodup g B hg u) h2 h hend]

theorem walk_cons (g : graph) (u : Int) (e : edge) (he : e ∈ g.get_edges u) :
    ∀ v w, walk g e.end_ v w → walk g u v (e.cost + w) := by
  intro v w hw
  induction hw with
  | refl =>
    have h := walk.step e (walk.refl u) he
    simpa using h
  | @step v0 w0 e2 _ he2 ih =>
    have h := walk.step e2 ih he2
    rw [add_assoc] at h
    exact h

theorem route_end_cons (u : Int) (st : path_step) (rest : List path_step) :
    route_end u (st :: rest) = route_end st.node rest := by
  unfold route_end
  cases rest with
  | nil => rfl
  | cons x rest2 =>
    rw [List.getLast?_cons_cons]
    cases h : (x :: rest2).getLast? with
    | none => simp at h
    | some y => rfl

/-- A route with a cost is a walk of that cost. -/
theorem route_walk (g : graph) : ∀ (p : List path_step) (u c : Int),
    route_cost g u p = some c → walk g u (route_end u p) c := by
  intro p
  induction p with
  | nil =>
    intro u c h
    simp only [route_cost, Option.some.injEq] at h
    rw [← h]
    exact walk.refl u
  | cons st rest ih =>
    intro u c h
    simp only [route_cost] at h
    cases he : g.get_edge u st.node with
    | none => rw [he] at h; cases h
    | some e =>
      rw [he] at h
      cases hr : route_cost g st.node rest with
      | none => rw [hr] at h; cases h
      | some c2 =>
        rw [hr] at h
        simp only [Option.map_some', Option.some.injEq] at h
        obtain ⟨hmem, hend⟩ := get_edge_some g u st.node e he
        have hw := ih st.node c2 hr
        rw [← hend] at hw
        have := walk_cons g u e hmem _ _ hw
        rw [h, hend, ← route_end_cons u st rest] at this
        exact this

/-- At the end of the search the costs are a lower bound for the cost of every walk from the
start. -/
theorem final_dist_le_walk (g : graph) (s B : Int) (r : search_maps) (rank : Int → Nat)
    (hg : g.bounded B) (fin : search_inv g s B r [] g.get_nodes rank) :
    ∀ v w, walk g s v w → is_node g.get_nodes v ∧ r.dist v ≤ w := by
  intro v w hw
  induction hw with
  | refl => exact ⟨fin.start_node, by rw [fin.dist_start]⟩
  | @step v0 w0 e _ he ih =>
    obtain ⟨hv, hd⟩ := ih
    obtain ⟨hend, _, _⟩ := bounded_edge g B hg v0 e he
    have := fin.popped_edges v0 hv (List.not_mem_nil _) e he
    exact ⟨hend, by linarith⟩

/-- At the end of the search the unwinding loop, started at a node, returns, and what it has
collected is, reversed, a route from the start whose cost is the cost of that node. -/
theorem unwind_returns_route (g : graph) (s B : Int) (r : search_maps) (rank : Int → Nat)
    (hg : g.bounded B) (fin : search_inv g s B r [] g.get_nodes rank) :
    ∀ (fuel : Nat) (current : Int) (acc : List path_step) (c : Int),
      is_node g.get_nodes current → rank current ≤ fuel →
      route_ok g current acc.reverse = true → route_cost g current acc.reverse = some c →
      ∃ p, unwind g r.previous s fuel current acc = outcome.returns p ∧
        route_ok g s p.reverse = true ∧
        route_cost g s p.reverse = some (r.dist current + c) ∧
        route_end s p.reverse = route_end current acc.reverse := by
  intro fuel
  induction fuel with
  | zero =>
    intro current acc c hnode hrank hok hcost
    by_cases hcs : current = s
    · refine ⟨acc, by simp [unwind, hcs], ?_, ?_, ?_⟩
      · rw [← hcs]; exact hok
      · rw [← hcs, hcost, hcs, fin.dist_start]; simp
      · rw [hcs]
    · exfalso
      have hfin := fin.popped_finite current hnode (List.not_mem_nil _)
      obtain ⟨_, _, hrk, _⟩ := fin.tree current hnode hcs hfin
      omega
  | succ fuel ih =>
    intro current acc c hnode hrank hok hcost
    by_cases hcs : current = s
    · refine ⟨acc, by simp [unwind, hcs], ?_, ?_, ?_⟩
      · rw [← hcs]; exact hok
      · rw [← hcs, hcost, hcs, fin.dist_start]; simp
      · rw [hcs]
    · have hfin := fin.popped_finite current hnode (List.not_mem_nil _)
      obtain ⟨hpn, _, hrk, e, he, hend, hde⟩ := fin.tree current hnode hcs hfin
      have hget : g.get_edge (r.previous current) current = some e := by
        have := get_edge_of_mem g B hg _ e he
        rwa [hend] at this
      have hrev : (acc ++ [path_step.mk current e.dir]).reverse =
          path_step.mk current e.dir :: acc.reverse := by simp
      have hok2 : route_ok g (r.previous current)
          (acc ++ [path_step.mk current e.dir]).reverse = true := by
        rw [hrev]
        simp only [route_ok, hget, decide_True, Bool.true_and]
        exact hok
      have hcost2 : route_cost g (r.previous current)
          (acc ++ [path_step.mk current e.dir]).reverse = some (e.cost + c) := by
        rw [hrev]
        simp only [route_cost, hget, hcost, Option.map_some']
      obtain ⟨p, hp, hpok, hpcost, hpend⟩ :=
        ih (r.previous current) (acc ++ [path_step.mk current e.dir]) (e.cost + c) hpn
          (by omega) hok2 hcost2
      refine ⟨p, ?_, hpok, ?_, ?_⟩
      · unfold unwind
        rw [if_neg hcs, hget]
        exact hp
      · rw [hpcost, hde, add_assoc]
      · rw [hpend, hrev, route_end_cons]

/-! ## The search is exact where no sum overflows -/

/-- On a bounded graph in which every node is reachable from `s`, and for `e ≠ s`,
`find_shortest_path(g, s, e)` returns, with every lawful heap, a route from `s` that ends at `e`,
carries the directions of its edges, and whose cost is the least cost of a walk from `s` to
`e`. -/
theorem find_shortest_path_exact (H : heap_ops) (hH : H.lawful) (g : graph) (B : Int)
    (hg : g.bounded B) (s e : Int) (hs : is_node g.get_nodes s)
    (he : is_node g.get_nodes e) (hne : s ≠ e)
    (hreach : ∀ v, is_node g.get_nodes v → ∃ w, walk g s v w) :
    ∃ p c, find_shortest_path H g s e = outcome.returns p ∧
      route_ok g s p = true ∧ route_end s p = e ∧ route_cost g s p = some c ∧
      walk g s e c ∧ ∀ w, walk g s e w → c ≤ w := by
  obtain ⟨m, hm, hmem⟩ := search_mem H hH g s
  obtain ⟨rank, fin⟩ := all_runs_inv g s B hg hreach _ _ _ 0 _
    (search_inv_init g s B hs) (le_refl _) m hmem
  have hrank : rank e ≤ g.get_nodes + 2 := by
    have := fin.rank_popped e he (List.not_mem_nil _)
    omega
  obtain ⟨p, hp, hok, hcost, hend⟩ := unwind_returns_route g s B m rank hg fin
    (g.get_nodes + 2) e [] 0 he hrank (by simp [route_ok]) (by simp [route_cost])
  have hend2 : route_end s p.reverse = e := by
    rw [hend]; simp [route_end]
  rw [add_zero] at hcost
  refine ⟨p.reverse, m.dist e, ?_, hok, hend2, hcost, ?_, ?_⟩
  · unfold find_shortest_path
    rw [if_neg hne]
    unfold search_and_unwind
    rw [hm]
    simp only [hp, finish, Bool.false_eq_true, if_false]
  · have := route_walk g p.reverse s (m.dist e) hcost
    rwa [hend2] at this
  · intro w hw
    exact (final_dist_le_walk g s B m rank hg fin e w hw).2

/-- The conditions of `find_shortest_path_exact` hold on the circuit `0 → 1 → 2 → 0`, from
node 0 to node 2. -/
theorem find_shortest_path_exact_on_ring :
    ∃ p c, find_shortest_path sorted_heap ring_graph 0 2 = outcome.returns p ∧
      route_ok ring_graph 0 p = true ∧ route_end 0 p = 2 ∧ route_cost ring_graph 0 p = some c ∧
      walk ring_graph 0 2 c ∧ ∀ w, walk ring_graph 0 2 w → c ≤ w := by
  have hg : ring_graph.bounded 1 :=
    { bound_nonneg := by decide, small := by decide, ends := by decide, costs := by decide,
      simple := by decide }
  have w1 : walk ring_graph 0 1 (0 + 1) :=
    walk.step ⟨1, 1, direction.FORWARD⟩ (walk.refl 0) (by decide)
  have w2 : walk ring_graph 0 2 (0 + 1 + 1) :=
    walk.step ⟨2, 1, direction.LEFT⟩ w1 (by decide)
  refine find_shortest_path_exact sorted_heap sorted_heap_lawful ring_graph 1 hg 0 2
    (by decide) (by decide) (by decide) ?_
  intro v hv
  obtain ⟨h0, h1⟩ := hv
  have h2 : v < 3 := h1
  interval_cases v
  · exact ⟨0, walk.refl 0⟩
  · exact ⟨_, w1⟩
  · exact ⟨_, w2⟩

/-! ## Lemmas: the number of steps where no sum overflows -/

/-- At the end of the search, what the unwinding loop has collected is ordered by strictly
decreasing rank, with every rank above that of the start and below the number of nodes. -/
theorem unwind_ranked (g : graph) (s B : Int) (r : search_maps) (rank : Int → Nat)
    (fin : search_inv g s B r [] g.get_nodes rank) :
    ∀ (fuel : Nat) (current : Int) (acc p : List path_step),
      is_node g.get_nodes current →
      (acc.map (fun st => rank st.node)).Pairwise (fun a b => b < a) →
      (∀ st ∈ acc, rank current < rank st.node ∧ rank st.node < g.get_nodes) →
      unwind g r.previous s fuel current acc = outcome.returns p →
      (p.map (fun st => rank st.node)).Pairwise (fun a b => b < a) ∧
      ∀ st ∈ p, rank s < rank st.node ∧ rank st.node < g.get_nodes := by
  intro fuel
  induction fuel with
  | zero =>
    intro current acc p _ hpw hacc h
    unfold unwind at h
    split at h
    · rename_i hcs
      cases h
      rw [← hcs]
      exact ⟨hpw, hacc⟩
    · cases h
  | succ fuel ih =>
    intro current acc p hnode hpw hacc h
    unfold unwind at h
    split at h
    · rename_i hcs
      cases h
      rw [← hcs]
      exact ⟨hpw, hacc⟩
    · rename_i hcs
      split at h
      · cases h
      · rename_i e _
        have hfin := fin.popped_finite current hnode (List.not_mem_nil _)
        obtain ⟨hpn, _, hrk, _⟩ := fin.tree current hnode hcs hfin
        have hcur := fin.rank_popped current hnode (List.not_mem_nil _)
        refine ih (r.previous current) (acc ++ [path_step.mk current e.dir]) p hpn ?_ ?_ h
        · rw [List.map_append, List.pairwise_append]
          refine ⟨hpw, by simp, ?_⟩
          intro a ha b hb
          rw [List.mem_map] at ha
          obtain ⟨st, hst, rfl⟩ := ha
          simp only [List.map_cons, List.map_nil, List.mem_singleton] at hb
          rw [hb]
          exact (hacc st hst).1
        · intro st hst
          rcases List.mem_append.1 hst with h1 | h1
          · exact ⟨lt_trans hrk (hacc st h1).1, (hacc st h1).2⟩
          · rw [List.mem_singleton.1 h1]
            exact ⟨hrk, hcur⟩

/-- A list of pairwise different numbers between 1 and `n - 1` has at most `n - 1` elements. -/
theorem length_le_of_ranks (l : List Nat) (n : Nat) (hnd : l.Nodup)
    (h : ∀ a ∈ l, 0 < a ∧ a < n) : l.length + 1 ≤ n ∨ l = [] := by
  by_cases hl : l = []
  · exact Or.inr hl
  · left
    have hsub : l.toFinset ⊆ Finset.Ico 1 n := by
      intro a ha
      rw [List.mem_toFinset] at ha
      rw [Finset.mem_Ico]
      have := h a ha
      omega
    have hcard := Finset.card_le_card hsub
    rw [List.toFinset_card_of_nodup hnd, Nat.card_Ico] at hcard
    have hpos : 0 < l.length := List.length_pos.2 hl
    omega

/-- On a bounded graph in which every node is reachable from `s`, and for `e ≠ s`, the sequence
`find_shortest_path(g, s, e)` returns has at most `get_nodes - 1` steps, at pairwise different
nodes. -/
theorem find_shortest_path_steps (H : heap_ops) (hH : H.lawful) (g : graph) (B : Int)
    (hg : g.bounded B) (s e : Int) (hs : is_node g.get_nodes s)
    (he : is_node g.get_nodes e) (hne : s ≠ e)
    (hreach : ∀ v, is_node g.get_nodes v → ∃ w, walk g s v w) :
    ∃ p, find_shortest_path H g s e = outcome.returns p ∧
      p.length + 1 ≤ g.get_nodes ∧ (p.map path_step.node).Nodup := by
  obtain ⟨m, hm, hmem⟩ := search_mem H hH g s
  obtain ⟨rank, fin⟩ := all_runs_inv g s B hg hreach _ _ _ 0 _
    (search_inv_init g s B hs) (le_refl _) m hmem
  have hrank : rank e ≤ g.get_nodes + 2 := by
    have := fin.rank_popped e he (List.not_mem_nil _)
    omega
  obtain ⟨p, hp, _, _, _⟩ := unwind_returns_route g s B m rank hg fin
    (g.get_nodes + 2) e [] 0 he hrank (by simp [route_ok]) (by simp [route_cost])
  obtain ⟨hpw, hbounds⟩ := unwind_ranked g s B m rank fin (g.get_nodes + 2) e [] p he
    (by simp) (by simp) hp
  have hnd : (p.map (fun st => rank st.node)).Nodup :=
    hpw.imp (fun hab => Nat.ne_of_gt hab)
  have hlen := length_le_of_ranks (p.map (fun st => rank st.node)) g.get_nodes hnd (by
    intro a ha
    rw [List.mem_map] at ha
    obtain ⟨st, hst, rfl⟩ := ha
    have := hbounds st hst
    omega)
  refine ⟨p.reverse, ?_, ?_, ?_⟩
  · unfold find_shortest_path
    rw [if_neg hne]
    unfold search_and_unwind
    rw [hm]
    simp only [hp, finish, Bool.false_eq_true, if_false]
  · rw [List.length_reverse]
    rcases hlen with h | h
    · simpa using h
    · have hp0 : p = [] := by simpa using h
      rw [hp0]
      have := hs.1
      have := hs.2
      simp only [List.length_nil]
      omega
  · rw [List.map_reverse, List.nodup_reverse]
    have h2 : (p.map (fun st => rank st.node)) = (p.map path_step.node).map rank := by
      rw [List.map_map]; rfl
    rw [h2] at hnd
    exact List.Nodup.of_map rank hnd

/-! ## Claims: the path engine -/

/-- Claim C1, at an input where it fails: on `overflow_cycle_graph` (non-negative costs, node 1
reachable from node 0 by the edge `0 → 1` of cost 1) no lawful heap lets
`find_shortest_path(g, 0, 1)` return: relaxing the edges of the nodes popped at cost `INT_MAX`
overflows, the predecessors of 1, 2 and 3 form a cycle, and the unwinding loop is still running
after any number of tests. -/
theorem C1_overflow_no_return (H : heap_ops) (hH : H.lawful) :
    overflow_cycle_graph.nonneg_costs ∧
    walk overflow_cycle_graph 0 1 (0 + 1) ∧
    find_shortest_path H overflow_cycle_graph 0 1 = outcome.diverges ∧
    ∃ m, search H overflow_cycle_graph 0 = some m ∧
      ∀ fuel, unwind overflow_cycle_graph m.previous 0 fuel 1 [] = outcome.diverges := by
  have hall : ∀ o ∈ find_shortest_path_outcomes overflow_cycle_graph 0 1,
      o = outcome.diverges := by decide
  have hd := hall _ (find_shortest_path_mem H hH overflow_cycle_graph 0 1)
  refine ⟨by decide, walk.step ⟨1, 1, direction.FORWARD⟩ (walk.refl 0) (by decide), hd, ?_⟩
  obtain ⟨m, hm, _⟩ := search_mem H hH overflow_cycle_graph 0
  refine ⟨m, hm, unwinding_bound_exact H hH overflow_cycle_graph 0 1 m hm ?_⟩
  have hne : (0 : Int) ≠ 1 := by decide
  unfold find_shortest_path at hd
  rw [if_neg hne] at hd
  unfold search_and_unwind at hd
  rw [hm] at hd
  exact finish_false_diverges _ _ _ _ hd

/-- Witness of `C1_overflow_no_return` at the reference heap. -/
theorem C1_overflow_no_return_witness :
    sorted_heap.lawful ∧
    find_shortest_path sorted_heap overflow_cycle_graph 0 1 = outcome.diverges :=
  ⟨sorted_heap_lawful, (C1_overflow_no_return sorted_heap sorted_heap_lawful).2.2.1⟩

/-- Claim C2, at an input where it fails: on `overflow_graph` (non-negative costs, node 1
reachable from node 0 by the edge `0 → 1`) no lawful heap lets `find_shortest_path(g, 0, 1)`
return a walk: the overflow on popping node 2 records 2 as the predecessor of 1, and the
unwinding loop looks up the edge `0 → 2`, which the graph does not have. -/
theorem C2_overflow_no_walk (H : heap_ops) (hH : H.lawful) :
    overflow_graph.nonneg_costs ∧
    walk overflow_graph 0 1 (0 + 1) ∧
    overflow_graph.get_edge 0 2 = none ∧
    find_shortest_path H overflow_graph 0 1 = outcome.undefined := by
  refine ⟨by decide, walk.step ⟨1, 1, direction.FORWARD⟩ (walk.refl 0) (by decide),
    by decide, ?_⟩
  have hall : ∀ o ∈ find_shortest_path_outcomes overflow_graph 0 1,
      o = outcome.undefined := by decide
  exact hall _ (find_shortest_path_mem H hH overflow_graph 0 1)

/-- Witness of `C2_overflow_no_walk` at the reference heap. -/
theorem C2_overflow_no_walk_witness :
    sorted_heap.lawful ∧
    find_shortest_path sorted_heap overflow_graph 0 1 = outcome.undefined :=
  ⟨sorted_heap_lawful, (C2_overflow_no_walk sorted_heap sorted_heap_lawful).2.2.2⟩

/-- Claim C3: on the graph `0 → 1 → 2` with both edges of cost 1 and direction `FORWARD`,
`find_shortest_path(g, 0, 2)` returns exactly `[(1, FORWARD), (2, FORWARD)]`, whatever lawful
heap implementation is used. -/
theorem C3_example_path (H : heap_ops) (hH : H.lawful) :
    find_shortest_path H example_graph 0 2 =
      outcome.returns [⟨1, direction.FORWARD⟩, ⟨2, direction.FORWARD⟩] := by
  have hall : ∀ o ∈ find_shortest_path_outcomes example_graph 0 2,
      o = outcome.returns [⟨1, direction.FORWARD⟩, ⟨2, direction.FORWARD⟩] := by decide
  exact hall _ (find_shortest_path_mem H hH example_graph 0 2)

/-- Witness of `C3_example_path` at the reference heap. -/
theorem C3_example_path_witness :
    sorted_heap.lawful ∧
    find_shortest_path sorted_heap example_graph 0 2 =
      outcome.returns [⟨1, direction.FORWARD⟩, ⟨2, direction.FORWARD⟩] :=
  ⟨sorted_heap_lawful, C3_example_path sorted_heap sorted_heap_lawful⟩

/-- Claim C4 as stated is false: on the circuit `0 → 1 → 0`, `find_shortest_path(g, 0, 0)`
returns `[(0, LEFT)]`, a step whose node is the start node the caller passed. -/
theorem C4_start_is_a_step_when_equal :
    ¬ (∀ (H : heap_ops) (g : graph) (s e : Int) (p : List path_step), H.lawful →
        find_shortest_path H g s e = outcome.returns p → ∀ st ∈ p, st.node ≠ s) := by
  intro h
  have hp : find_shortest_path sorted_heap circuit_graph 0 0 =
      outcome.returns [⟨0, direction.LEFT⟩] := by decide
  exact h sorted_heap circuit_graph 0 0 _ sorted_heap_lawful hp ⟨0, direction.LEFT⟩
    (List.mem_singleton.2 rfl) rfl

/-- Claim C4, amended: whenever `find_shortest_path(g, s, e)` returns, no step has its node
equal to the node the search started from: `s` itself when `s ≠ e`, and the endpoint of the
first outgoing edge of `s` when `s = e`. -/
theorem C4_search_start_is_no_step (H : heap_ops) (g : graph) (s e : Int) (p : List path_step)
    (h : find_shortest_path H g s e = outcome.returns p) :
    (s ≠ e → ∀ st ∈ p, st.node ≠ s) ∧
    (s = e → ∀ x, (g.get_edges s).head? = some x → ∀ st ∈ p, st.node ≠ x.end_) := by
  unfold find_shortest_path at h
  constructor
  · intro hne
    rw [if_neg hne] at h
    exact search_and_unwind_nodes_ne_start H g s e (-1) p h
  · intro heq x hx
    rw [if_pos heq, hx] at h
    exact search_and_unwind_nodes_ne_start H g x.end_ e s p h

/-- Witness of `C4_search_start_is_no_step` on the example graph. -/
theorem C4_search_start_is_no_step_witness :
    find_shortest_path sorted_heap example_graph 0 2 =
      outcome.returns [⟨1, direction.FORWARD⟩, ⟨2, direction.FORWARD⟩] ∧
    ((0 : Int) ≠ 2 → ∀ st ∈ [path_step.mk 1 direction.FORWARD, ⟨2, direction.FORWARD⟩],
      st.node ≠ 0) :=
  ⟨by decide, (C4_search_start_is_no_step sorted_heap example_graph 0 2 _ (by decide)).1⟩

/-- Claim C5, at an input where it fails: node 0 of `self_loop_graph` has an outgoing edge
(the loop `0 → 0`, cost 1) and is reachable from that edge's endpoint, which is 0 itself; yet
`find_shortest_path(g, 0, 0)` returns the empty sequence, with every lawful heap. -/
theorem C5_self_loop_empty (H : heap_ops) (hH : H.lawful) :
    self_loop_graph.nonneg_costs ∧
    (self_loop_graph.get_edges 0).head? = some ⟨0, 1, direction.FORWARD⟩ ∧
    walk self_loop_graph 0 0 0 ∧
    find_shortest_path H self_loop_graph 0 0 = outcome.returns [] := by
  refine ⟨by decide, by decide, walk.refl 0, ?_⟩
  have hall : ∀ o ∈ find_shortest_path_outcomes self_loop_graph 0 0,
      o = outcome.returns [] := by decide
  exact hall _ (find_shortest_path_mem H hH self_loop_graph 0 0)

/-- Witness of `C5_self_loop_empty` at the reference heap. -/
theorem C5_self_loop_empty_witness :
    sorted_heap.lawful ∧ find_shortest_path sorted_heap self_loop_graph 0 0 = outcome.returns [] :=
  ⟨sorted_heap_lawful, (C5_self_loop_empty sorted_heap sorted_heap_lawful).2.2.2⟩

/-! ## Lemmas: output bounding -/

/-- The speed test of line 134 reads the angle: a speed below `-MAX_INPUT_SPEED` passes through
whenever the bound angle is not itself below `-MAX_INPUT_SPEED`. -/
theorem bind_speed_keeps_low_speed (C : constants) (r : pid_decision_return)
    (h1 : r.speed ≤ C.MAX_INPUT_SPEED)
    (h2 : double.lt r.angle (double.finite (-C.MAX_INPUT_SPEED)) = false) :
    (bind_speed C r).speed = r.speed := by
  unfold bind_speed
  rw [if_neg (not_lt.2 h1), h2]
  simp

/-- With bounds ordered `0 ≤ MAX_INPUT_ANGLE ≤ MAX_INPUT_SPEED`, a speed of 0 is left at 0. -/
theorem bind_speed_zero (C : constants) (r : pid_decision_return)
    (h0 : 0 ≤ C.MAX_INPUT_SPEED)
    (h1 : double.lt r.angle (double.finite (-C.MAX_INPUT_SPEED)) = false) (hs : r.speed = 0) :
    (bind_speed C r).speed = 0 := by
  rw [bind_speed_keeps_low_speed C r (by rw [hs]; exact h0) h1, hs]

/-! ## Claims: the mission controller -/

/-- Claim C6, at an input where it fails: with `MAX_INPUT_SPEED = 100`, a cached path of two
steps and a regulation result of angle 0, speed -1000 and index 0, the iteration reaches the
regulation step and writes the speed -1000, below `-MAX_INPUT_SPEED`: line 134 tests
`regulate.angle` where the speed is meant. -/
theorem C6_speed_below_lower_bound (H : heap_ops) :
    ∃ it, pid_ctrl_iteration H example_constants (example_regulation 0 (-1000) 0) 1
        (example_registry example_graph [(0, 2)] 0
          [⟨1, direction.FORWARD⟩, ⟨2, direction.FORWARD⟩]) = some it ∧
      it.calls = [call.pid_decision] ∧
      it.reg.regulator_out.speed = -1000 ∧
      it.reg.regulator_out.speed < -example_constants.MAX_INPUT_SPEED := by
  refine ⟨_, rfl, rfl, ?_, ?_⟩
  · simp [regulate_and_publish, stay_at_end, finish_mission, bind_angle, bind_speed,
      example_regulation, example_constants, example_registry, regulation_input, double.lt]
    norm_num
  · simp [regulate_and_publish, stay_at_end, finish_mission, bind_angle, bind_speed,
      example_regulation, example_constants, example_registry, regulation_input, double.lt]
    norm_num

/-- Claim C7, at an input where it fails: with `MAX_INPUT_ANGLE = 100` and
`MAX_INPUT_SPEED = 50`, a cached path of two steps and a regulation result of angle -80,
speed 30 and index 2 (the path length), the speed is first forced to 0 and then, because the
bound angle -80 is below `-MAX_INPUT_SPEED`, overwritten by line 134: the speed written is -50. -/
theorem C7_stop_speed_overwritten (H : heap_ops) :
    ∃ it, pid_ctrl_iteration H wide_angle_constants (example_regulation (-80) 30 2) 1
        (example_registry example_graph [(0, 2)] 0
          [⟨1, direction.FORWARD⟩, ⟨2, direction.FORWARD⟩]) = some it ∧
      it.reg.regulator_out.speed = -50 ∧ it.reg.regulator_out.speed ≠ 0 := by
  refine ⟨_, rfl, ?_, ?_⟩
  · simp [regulate_and_publish, stay_at_end, finish_mission, bind_angle, bind_speed,
      example_regulation, wide_angle_constants, example_registry, regulation_input, double.lt]
    norm_num
  · simp [regulate_and_publish, stay_at_end, finish_mission, bind_angle, bind_speed,
      example_regulation, wide_angle_constants, example_registry, regulation_input, double.lt]
    norm_num

/-- Claim C8: when the mode is not `MANUAL` and the mission queue is empty, one iteration
leaves every registry entry as it was and calls neither the path engine nor the regulation
function. -/
theorem C8_idle_iteration (H : heap_ops) (C : constants)
    (pid_decision : pid_decision_in → pid_decision_return) (dt : ℚ) (reg : registry)
    (hmode : reg.mode ≠ C.MANUAL) (hq : reg.mission.missions = []) :
    pid_ctrl_iteration H C pid_decision dt reg = some ⟨reg, []⟩ := by
  unfold pid_ctrl_iteration
  rw [if_neg hmode, hq]

/-- Witness of `C8_idle_iteration`: autonomous mode with an empty queue. -/
theorem C8_idle_iteration_witness :
    (example_registry example_graph [] 0 []).mode ≠ example_constants.MANUAL ∧
    (example_registry example_graph [] 0 []).mission.missions = [] ∧
    pid_ctrl_iteration sorted_heap example_constants (example_regulation 0 0 0) 1
        (example_registry example_graph [] 0 []) =
      some ⟨example_registry example_graph [] 0 [], []⟩ :=
  ⟨by decide, rfl, C8_idle_iteration sorted_heap example_constants (example_regulation 0 0 0) 1
    (example_registry example_graph [] 0 []) (by decide) rfl⟩

/-- Claim C9: in `MANUAL` mode one iteration writes a regulator output whose angle and speed
are those of the control-change request, unclamped, leaves every other entry (mode, path,
samples and mission state among them) as it was, and makes no call. -/
theorem C9_manual_forwarding (H : heap_ops) (C : constants)
    (pid_decision : pid_decision_in → pid_decision_return) (dt : ℚ) (reg : registry)
    (hmode : reg.mode = C.MANUAL) :
    ∃ it, pid_ctrl_iteration H C pid_decision dt reg = some it ∧
      it.reg.regulator_out.angle = double.finite (reg.request.angle : ℚ) ∧
      it.reg.regulator_out.speed = (reg.request.speed : ℚ) ∧
      it.reg.mode = reg.mode ∧ it.reg.path = reg.path ∧ it.reg.samples = reg.samples ∧
      it.reg.mission = reg.mission ∧ it.reg.sensor = reg.sensor ∧
      it.reg.request = reg.request ∧ it.reg.metrics = reg.metrics ∧
      it.reg.params = reg.params ∧ it.calls = [] := by
  unfold pid_ctrl_iteration
  rw [if_pos hmode]
  exact ⟨_, rfl, rfl, rfl, rfl, rfl, rfl, rfl, rfl, rfl, rfl, rfl, rfl⟩

/-- Witness of `C9_manual_forwarding`: a request far outside the bounds, in mode `MANUAL`. -/
theorem C9_manual_forwarding_witness :
    ∃ it, pid_ctrl_iteration sorted_heap example_constants (example_regulation 0 0 0) 1
        { example_registry example_graph [(0, 2)] 0 [] with mode := 0, request := ⟨-500, 900⟩ }
          = some it ∧
      it.reg.regulator_out = ⟨double.finite (-500), 900⟩ :=
  match C9_manual_forwarding sorted_heap example_constants (example_regulation 0 0 0) 1
      { example_registry example_graph [(0, 2)] 0 [] with mode := 0, request := ⟨-500, 900⟩ }
      rfl with
  | ⟨it, h, ha, hs, _⟩ => ⟨it, h, by
      cases hr : it.reg.regulator_out
      rw [hr] at ha hs
      simp only at ha hs
      simp [ha, hs]⟩

/-- Claim C10: in an autonomous iteration with front mission `(a, b)`, `previous_pos ≠ a`, a
cached path that is empty or does not end at `b`, and a regulation result that does not finish
the mission (flag unset, index below the path length): the path written is
`find_shortest_path(g, previous_pos, X)` with `X` the endpoint of the first outgoing edge of
`a`, and the queue written is the old queue with `(previous_pos, X)` inserted at the front. -/
theorem C10_return_to_start_replan (H : heap_ops) (C : constants)
    (pid_decision : pid_decision_in → pid_decision_return) (dt : ℚ) (reg : registry)
    (a b : Int) (rest : List (Int × Int)) (x : edge) (p : List path_step)
    (hmode : reg.mode ≠ C.MANUAL)
    (hq : reg.mission.missions = (a, b) :: rest)
    (hpos : reg.mission.previous_pos ≠ a)
    (hstale : path_stale reg.path b = true)
    (hx : (reg.mission.g.get_edges a).head? = some x)
    (hp : find_shortest_path H reg.mission.g reg.mission.previous_pos x.end_ = outcome.returns p)
    (hflag : (pid_decision (regulation_input reg dt p)).mission_finished = false)
    (hidx : (pid_decision (regulation_input reg dt p)).index < p.length) :
    ∃ it, pid_ctrl_iteration H C pid_decision dt reg = some it ∧
      it.reg.path = p ∧
      it.reg.mission.missions = (reg.mission.previous_pos, x.end_) :: (a, b) :: rest ∧
      it.calls = [call.find_shortest_path reg.mission.previous_pos x.end_, call.pid_decision] := by
  have hplan : plan_path H reg.mission reg.path (a, b) =
      some ⟨p, (reg.mission.previous_pos, x.end_) :: (a, b) :: rest,
        [call.find_shortest_path reg.mission.previous_pos x.end_]⟩ := by
    unfold plan_path
    rw [if_pos ⟨hpos, hstale⟩]
    simp only [hx, hp, hq]
  unfold pid_ctrl_iteration
  rw [if_neg hmode, hq]
  simp only [hplan]
  refine ⟨_, rfl, rfl, ?_, rfl⟩
  simp only [regulate_and_publish, stay_at_end]
  rw [if_neg (not_le.2 hidx), hflag]
  simp

/-- Witness of `C10_return_to_start_replan`: `previous_pos = 1` and queue `[(0, 2)]` on the
circuit `0 → 1 → 2 → 0`; `X` is 1, and the path planned from 1 back to 1 is
`[(0, RIGHT), (1, FORWARD)]`. -/
theorem C10_return_to_start_replan_witness :
    ∃ it, pid_ctrl_iteration sorted_heap example_constants (example_regulation 0 10 0) 1
        (example_registry ring_graph [(0, 2)] 1 []) = some it ∧
      it.reg.path = [⟨0, direction.RIGHT⟩, ⟨1, direction.FORWARD⟩] ∧
      it.reg.mission.missions = [(1, 1), (0, 2)] ∧
      it.calls = [call.find_shortest_path 1 1, call.pid_decision] :=
  C10_return_to_start_replan sorted_heap example_constants (example_regulation 0 10 0) 1
    (example_registry ring_graph [(0, 2)] 1 []) 0 2 [] ⟨1, 1, direction.FORWARD⟩
    [⟨0, direction.RIGHT⟩, ⟨1, direction.FORWARD⟩]
    (by decide) rfl (by decide) rfl (by decide) (by decide) rfl (by decide)

/-- Claim C11: in an autonomous iteration with front mission `(a, b)`, `previous_pos = a` and
a cached path that is empty or does not end at `b`, the path written is
`find_shortest_path(g, previous_pos, b)`, that is the only call of the path engine, and no
mission is added: the queue written is the old one, less its front mission when the regulation
step finishes it. -/
theorem C11_replan_at_mission_start (H : heap_ops) (C : constants)
    (pid_decision : pid_decision_in → pid_decision_return) (dt : ℚ) (reg : registry)
    (a b : Int) (rest : List (Int × Int)) (p : List path_step)
    (hmode : reg.mode ≠ C.MANUAL)
    (hq : reg.mission.missions = (a, b) :: rest)
    (hpos : reg.mission.previous_pos = a)
    (hstale : path_stale reg.path b = true)
    (hp : find_shortest_path H reg.mission.g reg.mission.previous_pos b = outcome.returns p) :
    ∃ it, pid_ctrl_iteration H C pid_decision dt reg = some it ∧
      it.reg.path = p ∧
      it.calls = [call.find_shortest_path reg.mission.previous_pos b, call.pid_decision] ∧
      it.reg.mission.missions =
        if (stay_at_end p (pid_decision (regulation_input reg dt p))).mission_finished = true
        then rest else (a, b) :: rest := by
  have hplan : plan_path H reg.mission reg.path (a, b) =
      some ⟨p, (a, b) :: rest, [call.find_shortest_path reg.mission.previous_pos b]⟩ := by
    unfold plan_path
    rw [if_neg (fun h => h.1 hpos), if_pos hstale]
    simp only [hp, hq]
  unfold pid_ctrl_iteration
  rw [if_neg hmode, hq]
  simp only [hplan]
  refine ⟨_, rfl, rfl, rfl, ?_⟩
  simp only [regulate_and_publish, List.tail_cons]

/-- Witness of `C11_replan_at_mission_start`: queue `[(0, 2)]`, `previous_pos = 0` and an empty
cached path on the graph `0 → 1 → 2`; the path stored is `[(1, FORWARD), (2, FORWARD)]` and the
queue stays `[(0, 2)]`. -/
theorem C11_replan_at_mission_start_witness :
    ∃ it, pid_ctrl_iteration sorted_heap example_constants (example_regulation 0 10 0) 1
        (example_registry example_graph [(0, 2)] 0 []) = some it ∧
      it.reg.path = [⟨1, direction.FORWARD⟩, ⟨2, direction.FORWARD⟩] ∧
      it.calls = [call.find_shortest_path 0 2, call.pid_decision] ∧
      it.reg.mission.missions = [(0, 2)] :=
  C11_replan_at_mission_start sorted_heap example_constants (example_regulation 0 10 0) 1
    (example_registry example_graph [(0, 2)] 0 []) 0 2 []
    [⟨1, direction.FORWARD⟩, ⟨2, direction.FORWARD⟩]
    (by decide) rfl rfl rfl (by decide)

/-- Claim C14 as stated is false: in autonomous mode with an empty mission queue and a
regulator output of speed 4, one iteration leaves the speed at 4. -/
theorem C14_idle_speed_not_forced :
    ¬ (∀ (H : heap_ops) (C : constants) (pid_decision : pid_decision_in → pid_decision_return)
        (dt : ℚ) (reg : registry) (it : iteration),
        reg.mode ≠ C.MANUAL → reg.mission.missions = [] →
        pid_ctrl_iteration H C pid_decision dt reg = some it →
        it.reg.regulator_out.speed = 0) := by
  intro h
  have h4 := h sorted_heap example_constants (example_regulation 0 0 0) 1
    (example_registry example_graph [] 0 []) ⟨example_registry example_graph [] 0 [], []⟩
    (by decide) rfl rfl
  have h5 : (example_registry example_graph [] 0 []).regulator_out.speed = 4 := rfl
  rw [h5] at h4
  norm_num at h4

/-- Claim C14, amended: when the mode is not `MANUAL` and the mission queue is empty, the
regulator output after one iteration is the regulator output before it: the idle path of
lines 54-59 does not write it, so the speed is 0 only if it was 0 already. -/
theorem C14_idle_output_kept (H : heap_ops) (C : constants)
    (pid_decision : pid_decision_in → pid_decision_return) (dt : ℚ) (reg : registry)
    (it : iteration) (hmode : reg.mode ≠ C.MANUAL) (hq : reg.mission.missions = [])
    (hit : pid_ctrl_iteration H C pid_decision dt reg = some it) :
    it.reg.regulator_out = reg.regulator_out ∧
    it.reg.regulator_out.speed = reg.regulator_out.speed := by
  unfold pid_ctrl_iteration at hit
  rw [if_neg hmode, hq] at hit
  simp only [Option.some.injEq] at hit
  rw [← hit]
  exact ⟨rfl, rfl⟩

/-- Witness of `C14_idle_output_kept`: the output `(3, 4)` is still there after an idle
iteration. -/
theorem C14_idle_output_kept_witness :
    (example_registry example_graph [] 0 []).mode ≠ example_constants.MANUAL ∧
    (∀ it, pid_ctrl_iteration sorted_heap example_constants (example_regulation 0 0 0) 1
        (example_registry example_graph [] 0 []) = some it →
      it.reg.regulator_out = ⟨double.finite 3, 4⟩) :=
  ⟨by decide, fun it hit =>
    (C14_idle_output_kept sorted_heap example_constants (example_regulation 0 0 0) 1
      (example_registry example_graph [] 0 []) it (by decide) rfl hit).1⟩

/-! ## Lemmas: the regulation step -/

theorem bind_speed_angle (C : constants) (r : pid_decision_return) :
    (bind_speed C r).angle = r.angle := by
  unfold bind_speed
  split
  · rfl
  · split <;> rfl

theorem finish_mission_angle (C : constants) (r : pid_decision_return) :
    (finish_mission C r).angle = r.angle := by
  unfold finish_mission
  split <;> rfl

theorem stay_at_end_angle (path : List path_step) (r : pid_decision_return) :
    (stay_at_end path r).angle = r.angle := by
  unfold stay_at_end
  split <;> rfl

/-- Lines 128-130 leave an angle that is not not-a-number as a finite value between the bounds,
when the bound is not negative. -/
theorem bind_angle_bounds (C : constants) (r : pid_decision_return)
    (hC : 0 ≤ C.MAX_INPUT_ANGLE) (hn : r.angle ≠ double.nan) :
    ∃ q, (bind_angle C r).angle = double.finite q ∧
      -C.MAX_INPUT_ANGLE ≤ q ∧ q ≤ C.MAX_INPUT_ANGLE := by
  unfold bind_angle
  cases ha : r.angle with
  | nan => exact absurd ha hn
  | neg_inf =>
    refine ⟨-C.MAX_INPUT_ANGLE, ?_, le_refl _, by linarith⟩
    simp [double.lt]
  | pos_inf =>
    refine ⟨C.MAX_INPUT_ANGLE, ?_, by linarith, le_refl _⟩
    simp [double.lt]
  | finite a =>
    by_cases h1 : C.MAX_INPUT_ANGLE < a
    · refine ⟨C.MAX_INPUT_ANGLE, ?_, by linarith, le_refl _⟩
      simp [double.lt, h1]
    · by_cases h2 : a < -C.MAX_INPUT_ANGLE
      · refine ⟨-C.MAX_INPUT_ANGLE, ?_, le_refl _, by linarith⟩
        simp [double.lt, h1, h2]
      · refine ⟨a, ?_, not_lt.1 h2, not_lt.1 h1⟩
        simp [double.lt, h1, h2, ha]

/-- Lines 128-130 leave an angle that is already between the bounds as it is. -/
theorem bind_angle_id (C : constants) (r : pid_decision_return) (q : ℚ)
    (ha : r.angle = double.finite q)
    (h1 : -C.MAX_INPUT_ANGLE ≤ q) (h2 : q ≤ C.MAX_INPUT_ANGLE) :
    (bind_angle C r).angle = double.finite q := by
  unfold bind_angle
  simp [ha, double.lt, not_lt.2 h1, not_lt.2 h2]

/-- Lines 128-130 leave a not-a-number angle as it is: both comparisons are false. -/
theorem bind_angle_nan (C : constants) (r : pid_decision_return) (ha : r.angle = double.nan) :
    (bind_angle C r).angle = double.nan := by
  unfold bind_angle
  simp [ha, double.lt]

/-- The angle written by the regulation step is the bound angle of the regulation result. -/
theorem regulate_and_publish_angle (C : constants)
    (pid_decision : pid_decision_in → pid_decision_return) (dt : ℚ) (reg : registry)
    (pl : plan) :
    (regulate_and_publish C pid_decision dt reg pl).regulator_out.angle =
      (bind_angle C (pid_decision (regulation_input reg dt pl.path))).angle := by
  simp only [regulate_and_publish, bind_speed_angle]
  unfold bind_angle
  simp only [finish_mission_angle, stay_at_end_angle]
  split
  · rfl
  · split <;> simp only [finish_mission_angle, stay_at_end_angle]

/-- An iteration that gets past the mode test and the empty-queue test consists of the
replanning step followed by the regulation step. -/
theorem iteration_reaches_regulation (H : heap_ops) (C : constants)
    (pid_decision : pid_decision_in → pid_decision_return) (dt : ℚ) (reg : registry)
    (it : iteration) (mission : Int × Int) (rest : List (Int × Int))
    (hmode : reg.mode ≠ C.MANUAL) (hq : reg.mission.missions = mission :: rest)
    (hit : pid_ctrl_iteration H C pid_decision dt reg = some it) :
    ∃ pl, plan_path H reg.mission reg.path mission = some pl ∧
      it.reg = regulate_and_publish C pid_decision dt reg pl ∧
      it.calls = pl.calls ++ [call.pid_decision] := by
  unfold pid_ctrl_iteration at hit
  rw [if_neg hmode, hq] at hit
  cases hpl : plan_path H reg.mission reg.path mission with
  | none => simp only [hpl] at hit; cases hit
  | some pl =>
    simp only [hpl, Option.some.injEq] at hit
    exact ⟨pl, rfl, by rw [← hit], by rw [← hit]⟩

/-- The replanning step never leaves an empty queue when it started from a non-empty one. -/
theorem plan_path_missions (H : heap_ops) (md : mission_data) (path : List path_step)
    (mission : Int × Int) (rest : List (Int × Int)) (pl : plan)
    (hq : md.missions = mission :: rest) (hpl : plan_path H md path mission = some pl) :
    pl.missions = mission :: rest ∨ ∃ front, pl.missions = front :: mission :: rest := by
  unfold plan_path at hpl
  split at hpl
  · split at hpl
    · cases hpl
    · split at hpl
      · simp only [Option.some.injEq] at hpl
        rw [← hpl]
        exact Or.inr ⟨_, by rw [hq]⟩
      · cases hpl
  · split at hpl
    · split at hpl
      · simp only [Option.some.injEq] at hpl
        rw [← hpl]
        exact Or.inl hq
      · cases hpl
    · simp only [Option.some.injEq] at hpl
      rw [← hpl]
      exact Or.inl hq

/-- Claim C15 as stated is false: with `MAX_INPUT_ANGLE = 100`, on the cached path of the
example, a regulation result whose angle is not-a-number passes both tests of lines 129-130 and
is written as it is: the angle written is no value between -100 and 100. -/
theorem C15_nan_angle_unbound :
    ¬ (∀ (H : heap_ops) (C : constants) (pid_decision : pid_decision_in → pid_decision_return)
        (dt : ℚ) (reg : registry) (it : iteration) (mission : Int × Int)
        (rest : List (Int × Int)),
        reg.mode ≠ C.MANUAL → reg.mission.missions = mission :: rest →
        0 ≤ C.MAX_INPUT_ANGLE →
        pid_ctrl_iteration H C pid_decision dt reg = some it →
        ∃ q, it.reg.regulator_out.angle = double.finite q ∧
          -C.MAX_INPUT_ANGLE ≤ q ∧ q ≤ C.MAX_INPUT_ANGLE) := by
  intro h
  obtain ⟨q, hq, _⟩ := h sorted_heap example_constants nan_regulation 1
    (example_registry example_graph [(0, 2)] 0
      [⟨1, direction.FORWARD⟩, ⟨2, direction.FORWARD⟩]) _ (0, 2) []
    (by decide) rfl (by decide) rfl
  have hnan : (regulate_and_publish example_constants nan_regulation 1
      (example_registry example_graph [(0, 2)] 0
        [⟨1, direction.FORWARD⟩, ⟨2, direction.FORWARD⟩])
      ⟨[⟨1, direction.FORWARD⟩, ⟨2, direction.FORWARD⟩], [(0, 2)], []⟩).regulator_out.angle =
      double.nan := by
    rw [regulate_and_publish_angle]
    exact bind_angle_nan _ _ rfl
  have hq2 : double.nan = double.finite q := hnan.symm.trans hq
  cases hq2

/-- Claim C15, amended: in an autonomous iteration that reaches the regulation step, with a
bound `MAX_INPUT_ANGLE` that is not negative: when the angle the regulation function returns is
not not-a-number, the angle written to the regulator output is a finite value between
`-MAX_INPUT_ANGLE` and `MAX_INPUT_ANGLE`; it is the returned angle whenever that already lies
between the bounds; and a not-a-number angle is written as it is. -/
theorem C15_angle_bound (H : heap_ops) (C : constants)
    (pid_decision : pid_decision_in → pid_decision_return) (dt : ℚ) (reg : registry)
    (it : iteration) (mission : Int × Int) (rest : List (Int × Int))
    (hmode : reg.mode ≠ C.MANUAL) (hq : reg.mission.missions = mission :: rest)
    (hC : 0 ≤ C.MAX_INPUT_ANGLE)
    (hit : pid_ctrl_iteration H C pid_decision dt reg = some it) :
    ((pid_decision (regulation_input reg dt it.reg.path)).angle ≠ double.nan →
      ∃ q, it.reg.regulator_out.angle = double.finite q ∧
        -C.MAX_INPUT_ANGLE ≤ q ∧ q ≤ C.MAX_INPUT_ANGLE) ∧
    (∀ q, (pid_decision (regulation_input reg dt it.reg.path)).angle = double.finite q →
      -C.MAX_INPUT_ANGLE ≤ q → q ≤ C.MAX_INPUT_ANGLE →
      it.reg.regulator_out.angle = double.finite q) ∧
    ((pid_decision (regulation_input reg dt it.reg.path)).angle = double.nan →
      it.reg.regulator_out.angle = double.nan) := by
  obtain ⟨pl, _, hreg, _⟩ :=
    iteration_reaches_regulation H C pid_decision dt reg it mission rest hmode hq hit
  have hpath : it.reg.path = pl.path := by rw [hreg]; rfl
  rw [hpath, hreg, regulate_and_publish_angle]
  exact ⟨fun hn => bind_angle_bounds C _ hC hn, fun q ha h1 h2 => bind_angle_id C _ q ha h1 h2,
    fun ha => bind_angle_nan C _ ha⟩

/-- Witness of `C15_angle_bound`: a returned angle of 250 is written as a value between -100
and 100 on the cached path of the example. -/
theorem C15_angle_bound_witness :
    ∃ it, pid_ctrl_iteration sorted_heap example_constants (example_regulation 250 10 0) 1
        (example_registry example_graph [(0, 2)] 0
          [⟨1, direction.FORWARD⟩, ⟨2, direction.FORWARD⟩]) = some it ∧
      ∃ q, it.reg.regulator_out.angle = double.finite q ∧
        -example_constants.MAX_INPUT_ANGLE ≤ q ∧ q ≤ example_constants.MAX_INPUT_ANGLE :=
  ⟨_, rfl,
    (C15_angle_bound sorted_heap example_constants (example_regulation 250 10 0) 1
      (example_registry example_graph [(0, 2)] 0
        [⟨1, direction.FORWARD⟩, ⟨2, direction.FORWARD⟩]) _ (0, 2) []
      (by decide) rfl (by decide) rfl).1 (by decide)⟩

/-- Claim C16: in an autonomous iteration that reaches the regulation step, with `pl` what the
replanning step left: if the regulation result sets mission-finished or its index is at least
the path length, the queue written is that of `pl` without its front mission, the index written
is 0 and the samples written have `dist_stop_line = IMAGE_HEIGHT * STOP_LINE_FACTOR`; otherwise
the queue written is that of `pl` and the index written is the one the regulation function
returned. -/
theorem C16_mission_finish (H : heap_ops) (C : constants)
    (pid_decision : pid_decision_in → pid_decision_return) (dt : ℚ) (reg : registry)
    (it : iteration) (mission : Int × Int) (rest : List (Int × Int))
    (hmode : reg.mode ≠ C.MANUAL) (hq : reg.mission.missions = mission :: rest)
    (hit : pid_ctrl_iteration H C pid_decision dt reg = some it) :
    ∃ pl, plan_path H reg.mission reg.path mission = some pl ∧
      (((pid_decision (regulation_input reg dt pl.path)).mission_finished = true ∨
          pl.path.length ≤ (pid_decision (regulation_input reg dt pl.path)).index) →
        (∃ front, pl.missions = front :: it.reg.mission.missions) ∧
        it.reg.mission.index = 0 ∧
        it.reg.samples.dist_stop_line = C.IMAGE_HEIGHT * C.STOP_LINE_FACTOR) ∧
      (¬ ((pid_decision (regulation_input reg dt pl.path)).mission_finished = true ∨
          pl.path.length ≤ (pid_decision (regulation_input reg dt pl.path)).index) →
        it.reg.mission.missions = pl.missions ∧
        it.reg.mission.index = (pid_decision (regulation_input reg dt pl.path)).index) := by
  obtain ⟨pl, hpl, hreg, _⟩ :=
    iteration_reaches_regulation H C pid_decision dt reg it mission rest hmode hq hit
  refine ⟨pl, hpl, ?_, ?_⟩
  · intro hfin
    have hflag : (stay_at_end pl.path
        (pid_decision (regulation_input reg dt pl.path))).mission_finished = true := by
      unfold stay_at_end
      by_cases hidx : (pid_decision (regulation_input reg dt pl.path)).index ≥ pl.path.length
      · rw [if_pos hidx]
      · rw [if_neg hidx]
        rcases hfin with h | h
        · exact h
        · exact absurd h hidx
    rw [hreg]
    simp only [regulate_and_publish, finish_mission, hflag, if_true]
    refine ⟨?_, trivial, trivial⟩
    rcases plan_path_missions H reg.mission reg.path mission rest pl hq hpl with h | ⟨front, h⟩
    · exact ⟨mission, by rw [h]; rfl⟩
    · exact ⟨front, by rw [h]; rfl⟩
  · intro hnot
    have hidx : ¬ (pid_decision (regulation_input reg dt pl.path)).index ≥ pl.path.length :=
      fun h => hnot (Or.inr h)
    have hflag : (pid_decision (regulation_input reg dt pl.path)).mission_finished = false := by
      cases hf : (pid_decision (regulation_input reg dt pl.path)).mission_finished with
      | false => rfl
      | true => exact absurd (Or.inl hf) hnot
    rw [hreg]
    simp only [regulate_and_publish, finish_mission, stay_at_end, if_neg hidx, hflag,
      Bool.false_eq_true, if_false]
    exact ⟨trivial, trivial⟩

/-- Witness of `C16_mission_finish`: on the cached path of the example, of length 2, a returned
index of 2 finishes the mission `(0, 2)`. -/
theorem C16_mission_finish_witness :
    ∃ it, pid_ctrl_iteration sorted_heap example_constants (example_regulation 0 10 2) 1
        (example_registry example_graph [(0, 2)] 0
          [⟨1, direction.FORWARD⟩, ⟨2, direction.FORWARD⟩]) = some it ∧
      it.reg.mission.missions = [] ∧ it.reg.mission.index = 0 ∧
      it.reg.samples.dist_stop_line =
        example_constants.IMAGE_HEIGHT * example_constants.STOP_LINE_FACTOR := by
  refine ⟨_, rfl, ?_⟩
  obtain ⟨pl, hpl, hfin, _⟩ :=
    C16_mission_finish sorted_heap example_constants (example_regulation 0 10 2) 1
      (example_registry example_graph [(0, 2)] 0
        [⟨1, direction.FORWARD⟩, ⟨2, direction.FORWARD⟩]) _ (0, 2) [] (by decide) rfl rfl
  have hpl2 : (⟨[⟨1, direction.FORWARD⟩, ⟨2, direction.FORWARD⟩], [(0, 2)], []⟩ : plan) = pl :=
    Option.some.inj hpl
  subst hpl2
  obtain ⟨⟨front, hfront⟩, hidx, hsamp⟩ := hfin (Or.inr (by decide))
  exact ⟨(List.cons.inj hfront).2.symm, hidx, hsamp⟩

/-- Claim C17: in an autonomous iteration with front mission `(a, b)` whose cached path is
non-empty and ends at `b`, whatever `previous_pos` is: the path engine is not called, the path
handed to the regulation function and written to the registry is the cached one, and no mission
is pushed: the queue written is the old one, less its front mission when the regulation step
finishes it. -/
theorem C17_cached_path_reused (H : heap_ops) (C : constants)
    (pid_decision : pid_decision_in → pid_decision_return) (dt : ℚ) (reg : registry)
    (a b : Int) (rest : List (Int × Int)) (st : path_step)
    (hmode : reg.mode ≠ C.MANUAL) (hq : reg.mission.missions = (a, b) :: rest)
    (hlast : reg.path.getLast? = some st) (hb : st.node = b) :
    ∃ it, pid_ctrl_iteration H C pid_decision dt reg = some it ∧
      it.reg.path = reg.path ∧
      it.reg = regulate_and_publish C pid_decision dt reg ⟨reg.path, (a, b) :: rest, []⟩ ∧
      (regulation_input reg dt reg.path).map.path = reg.path ∧
      it.calls = [call.pid_decision] ∧
      it.reg.mission.missions =
        if (stay_at_end reg.path
            (pid_decision (regulation_input reg dt reg.path))).mission_finished = true
        then rest else (a, b) :: rest := by
  have hstale : path_stale reg.path b = false := by
    unfold path_stale
    rw [hlast]
    simp [hb]
  have hplan : plan_path H reg.mission reg.path (a, b) = some ⟨reg.path, (a, b) :: rest, []⟩ := by
    unfold plan_path
    simp only [hstale, Bool.false_eq_true, and_false, if_false, hq]
  unfold pid_ctrl_iteration
  rw [if_neg hmode, hq]
  simp only [hplan]
  refine ⟨_, rfl, rfl, rfl, rfl, rfl, ?_⟩
  simp only [regulate_and_publish, List.tail_cons]

/-- Witness of `C17_cached_path_reused`: the cached path of the example ends at 2, the end of
the mission `(0, 2)`, while `previous_pos` is 1. -/
theorem C17_cached_path_reused_witness :
    ∃ it, pid_ctrl_iteration sorted_heap example_constants (example_regulation 0 10 0) 1
        (example_registry example_graph [(0, 2)] 1
          [⟨1, direction.FORWARD⟩, ⟨2, direction.FORWARD⟩]) = some it ∧
      it.reg.path = [⟨1, direction.FORWARD⟩, ⟨2, direction.FORWARD⟩] ∧
      it.calls = [call.pid_decision] ∧ it.reg.mission.missions = [(0, 2)] :=
  match C17_cached_path_reused sorted_heap example_constants (example_regulation 0 10 0) 1
      (example_registry example_graph [(0, 2)] 1
        [⟨1, direction.FORWARD⟩, ⟨2, direction.FORWARD⟩]) 0 2 [] ⟨2, direction.FORWARD⟩
      (by decide) rfl rfl rfl with
  | ⟨it, h, hp, _, _, hc, hm⟩ => ⟨it, h, hp, hc, hm⟩

/-! ## Lemmas: the locks of the registry -/

/-- On an entry that is present and not locked, `acquire_data` returns the entry's data and
locks that entry only; a second `acquire_data` for the same id then waits, and acquires it again
after `release_data`. -/
theorem acquire_data_locks_entry (r : data_registry) (id : registry_id) (e : registry_entry)
    (he : r.registry id = some e) (hl : e.locked = false) :
    ∃ r2, r.acquire_data id = some (e.data, r2) ∧
      r2.registry id = some { e with locked := true } ∧
      (∀ k, k ≠ id → r2.registry k = r.registry k) ∧
      r2.acquire_data id = none ∧
      ((r2.release_data id).acquire_data id).map Prod.fst = some e.data := by
  refine ⟨⟨fun k => if k = id then some { e with locked := true } else r.registry k⟩, ?_, ?_,
    ?_, ?_, ?_⟩
  · simp [data_registry.acquire_data, he, hl]
  · simp
  · intro k hk
    simp [hk]
  · simp [data_registry.acquire_data]
  · simp [data_registry.acquire_data, data_registry.release_data]

/-- For an id without an entry `acquire_data` returns `nullptr` and locks nothing. -/
theorem acquire_data_absent (r : data_registry) (id : registry_id)
    (he : r.registry id = none) : r.acquire_data id = some (pointer.nullptr, r) := by
  simp [data_registry.acquire_data, he]

/-! ## Lemmas: mutual exclusion on the entries of the registry -/

theorem acquire_data_unlocked (r : data_registry) (id : registry_id) (e : registry_entry)
    (he : r.registry id = some e) (hl : e.locked = false) :
    r.acquire_data id = some (e.data,
      ⟨fun k => if k = id then some { e with locked := true } else r.registry k⟩) := by
  simp [data_registry.acquire_data, he, hl]

theorem acquire_data_locked (r : data_registry) (id : registry_id) (e : registry_entry)
    (he : r.registry id = some e) (hl : e.locked = true) : r.acquire_data id = none := by
  simp [data_registry.acquire_data, he, hl]

/-- A call changes no entry other than the one of its id. -/
theorem call_other_entry (r r2 : data_registry) (c : registry_call) (id : registry_id)
    (hc : r.call c = some r2) (hid : c.id ≠ id) : r2.registry id = r.registry id := by
  cases c with
  | acquire_data k id2 =>
    have hne : id ≠ id2 := fun h => hid h.symm
    simp only [data_registry.call] at hc
    cases he : r.registry id2 with
    | none =>
      rw [acquire_data_absent r id2 he] at hc
      simp only [Option.map_some', Option.some.injEq] at hc
      rw [← hc]
    | some e =>
      cases hl : e.locked with
      | true => rw [acquire_data_locked r id2 e he hl] at hc; cases hc
      | false =>
        rw [acquire_data_unlocked r id2 e he hl] at hc
        simp only [Option.map_some', Option.some.injEq] at hc
        rw [← hc]
        simp [hne]
  | release_data k id2 =>
    have hne : id ≠ id2 := fun h => hid h.symm
    simp only [data_registry.call, data_registry.release_data, Option.some.injEq] at hc
    cases he : r.registry id2 with
    | none => rw [he] at hc; rw [← hc]
    | some e =>
      rw [he] at hc
      rw [← hc]
      simp [hne]

/-- A call neither creates nor removes an entry. -/
theorem call_present (r r2 : data_registry) (c : registry_call) (id : registry_id)
    (hc : r.call c = some r2) : (r2.registry id).isSome = (r.registry id).isSome := by
  by_cases hid : c.id = id
  · cases c with
    | acquire_data k id2 =>
      have h2 : id2 = id := hid
      subst h2
      simp only [data_registry.call] at hc
      cases he : r.registry id2 with
      | none =>
        rw [acquire_data_absent r id2 he] at hc
        simp only [Option.map_some', Option.some.injEq] at hc
        rw [← hc, he]
      | some e =>
        cases hl : e.locked with
        | true => rw [acquire_data_locked r id2 e he hl] at hc; cases hc
        | false =>
          rw [acquire_data_unlocked r id2 e he hl] at hc
          simp only [Option.map_some', Option.some.injEq] at hc
          rw [← hc]
          simp
    | release_data k id2 =>
      have h2 : id2 = id := hid
      subst h2
      simp only [data_registry.call, data_registry.release_data, Option.some.injEq] at hc
      cases he : r.registry id2 with
      | none => rw [he] at hc; rw [← hc, he]
      | some e =>
        rw [he] at hc
        rw [← hc]
        simp
  · rw [call_other_entry r r2 c id hc hid]

theorem run_present (id : registry_id) : ∀ (cs : List registry_call) (r r2 : data_registry),
    r.run cs = some r2 → (r2.registry id).isSome = (r.registry id).isSome := by
  intro cs
  induction cs with
  | nil =>
    intro r r2 h
    simp only [data_registry.run, Option.some.injEq] at h
    rw [h]
  | cons c cs ih =>
    intro r r2 h
    simp only [data_registry.run] at h
    cases hc : r.call c with
    | none => rw [hc] at h; cases h
    | some r1 =>
      rw [hc] at h
      rw [ih r1 r2 h, call_present r r1 c id hc]

/-- An `acquire_data` that returns on a present entry leaves that entry locked. -/
theorem acquire_locks (r r2 : data_registry) (k : Nat) (id : registry_id)
    (hp : (r.registry id).isSome = true)
    (hc : r.call (registry_call.acquire_data k id) = some r2) :
    ∃ e, r2.registry id = some e ∧ e.locked = true := by
  simp only [data_registry.call] at hc
  cases he : r.registry id with
  | none => rw [he] at hp; cases hp
  | some e =>
    cases hl : e.locked with
    | true => rw [acquire_data_locked r id e he hl] at hc; cases hc
    | false =>
      rw [acquire_data_unlocked r id e he hl] at hc
      simp only [Option.map_some', Option.some.injEq] at hc
      rw [← hc]
      exact ⟨{ e with locked := true }, by simp, rfl⟩

/-- On a locked entry `acquire_data` waits. -/
theorem acquire_waits (r : data_registry) (k : Nat) (id : registry_id) (e : registry_entry)
    (he : r.registry id = some e) (hl : e.locked = true) :
    r.call (registry_call.acquire_data k id) = none := by
  simp [data_registry.call, data_registry.acquire_data, he, hl]

/-- A call other than a `release_data` for the id leaves a locked entry locked. -/
theorem call_keeps_lock (r r2 : data_registry) (c : registry_call) (id : registry_id)
    (e : registry_entry) (he : r.registry id = some e) (hl : e.locked = true)
    (hrel : ∀ k, c ≠ registry_call.release_data k id) (hc : r.call c = some r2) :
    ∃ e2, r2.registry id = some e2 ∧ e2.locked = true := by
  cases c with
  | acquire_data k id2 =>
    by_cases hid : id2 = id
    · rw [hid, acquire_waits r k id e he hl] at hc
      cases hc
    · have := call_other_entry r r2 (registry_call.acquire_data k id2) id hc hid
      exact ⟨e, by rw [this, he], hl⟩
  | release_data k id2 =>
    have hid : id2 ≠ id := fun h => hrel k (by rw [h])
    have := call_other_entry r r2 (registry_call.release_data k id2) id hc hid
    exact ⟨e, by rw [this, he], hl⟩

theorem run_keeps_lock (id : registry_id) : ∀ (cs : List registry_call) (r r2 : data_registry)
    (e : registry_entry), r.registry id = some e → e.locked = true →
    (∀ k, registry_call.release_data k id ∉ cs) → r.run cs = some r2 →
    ∃ e2, r2.registry id = some e2 ∧ e2.locked = true := by
  intro cs
  induction cs with
  | nil =>
    intro r r2 e he hl _ h
    simp only [data_registry.run, Option.some.injEq] at h
    rw [← h]
    exact ⟨e, he, hl⟩
  | cons c cs ih =>
    intro r r2 e he hl hrel h
    simp only [data_registry.run] at h
    cases hc : r.call c with
    | none => rw [hc] at h; cases h
    | some r1 =>
      rw [hc] at h
      obtain ⟨e1, he1, hl1⟩ := call_keeps_lock r r1 c id e he hl
        (fun k hk => hrel k (by rw [hk]; exact List.mem_cons_self _ _)) hc
      exact ih r1 r2 e1 he1 hl1 (fun k hk => hrel k (List.mem_cons_of_mem _ hk)) h

theorem run_append (cs1 cs2 : List registry_call) : ∀ (r : data_registry),
    r.run (cs1 ++ cs2) = (r.run cs1).bind (fun r2 => r2.run cs2) := by
  induction cs1 with
  | nil => intro r; rfl
  | cons c cs ih =>
    intro r
    simp only [List.cons_append, data_registry.run]
    cases r.call c with
    | none => rfl
    | some r1 => exact ih r1

/-- Mutual exclusion on an id that has an entry: in every order in which calls of concurrent
contexts return, two returns of `acquire_data` for that id are separated by a `release_data`
for it. The registry does not record which context holds an entry. -/
theorem acquire_data_mutual_exclusion (r : data_registry) (id : registry_id)
    (hp : (r.registry id).isSome = true) (pre mid post : List registry_call) (k1 k2 : Nat)
    (h : (r.run (pre ++ registry_call.acquire_data k1 id ::
      (mid ++ registry_call.acquire_data k2 id :: post))).isSome = true) :
    ∃ k, registry_call.release_data k id ∈ mid := by
  by_contra hno
  have hrel : ∀ k, registry_call.release_data k id ∉ mid := fun k hk => hno ⟨k, hk⟩
  rw [run_append] at h
  cases h1 : r.run pre with
  | none => rw [h1] at h; cases h
  | some r1 =>
    rw [h1] at h
    simp only [Option.some_bind, data_registry.run] at h
    have hp1 : (r1.registry id).isSome = true := by rw [run_present id pre r r1 h1]; exact hp
    cases h2 : r1.call (registry_call.acquire_data k1 id) with
    | none => rw [h2] at h; cases h
    | some r2 =>
      rw [h2] at h
      simp only at h
      obtain ⟨e2, he2, hl2⟩ := acquire_locks r1 r2 k1 id hp1 h2
      rw [run_append] at h
      cases h3 : r2.run mid with
      | none => rw [h3] at h; cases h
      | some r3 =>
        rw [h3] at h
        simp only [Option.some_bind, data_registry.run] at h
        obtain ⟨e3, he3, hl3⟩ := run_keeps_lock id mid r2 r3 e2 he2 hl2 hrel h3
        rw [acquire_waits r3 k2 id e3 he3 hl3] at h
        cases h

/-- A returned `acquire_data` for one id leaves `acquire_data` for any other id as it was:
acquisitions of different ids do not block each other. -/
theorem acquire_data_independent (r r2 : data_registry) (k : Nat) (id id2 : registry_id)
    (hne : id ≠ id2) (hc : r.call (registry_call.acquire_data k id) = some r2) :
    (r2.acquire_data id2).map Prod.fst = (r.acquire_data id2).map Prod.fst := by
  have h := call_other_entry r r2 (registry_call.acquire_data k id) id2 hc hne
  cases he : r.registry id2 with
  | none =>
    rw [acquire_data_absent r id2 he, acquire_data_absent r2 id2 (by rw [h, he])]
    rfl
  | some e =>
    cases hl : e.locked with
    | true =>
      rw [acquire_data_locked r id2 e he hl, acquire_data_locked r2 id2 e (by rw [h, he]) hl]
    | false =>
      rw [acquire_data_unlocked r id2 e he hl,
        acquire_data_unlocked r2 id2 e (by rw [h, he]) hl]
      rfl

/-! ## Claims: the shared state registry -/

/-- Claim C12, at inputs where it fails: on a freshly constructed registry `acquire_data`
returns the allocated object for the five ids the constructor initialises, and `nullptr` for
`MODE_ID`, `MISSION_DATA_ID`, `PATH_ID` and `REGULATOR_SAMPLE_DATA_ID`, which lines 6-29 never
insert. -/
theorem C12_fresh_registry_entries :
    (data_registry.constructor.acquire_data registry_id.MODE_ID).map Prod.fst =
      some pointer.nullptr ∧
    (data_registry.constructor.acquire_data registry_id.MISSION_DATA_ID).map Prod.fst =
      some pointer.nullptr ∧
    (data_registry.constructor.acquire_data registry_id.PATH_ID).map Prod.fst =
      some pointer.nullptr ∧
    (data_registry.constructor.acquire_data registry_id.REGULATOR_SAMPLE_DATA_ID).map Prod.fst =
      some pointer.nullptr ∧
    (data_registry.constructor.acquire_data registry_id.SENSOR_DATA_ID).map Prod.fst =
      some (pointer.object registry_id.SENSOR_DATA_ID) ∧
    (data_registry.constructor.acquire_data registry_id.CONTROL_CHANGE_DATA_ID).map Prod.fst =
      some (pointer.object registry_id.CONTROL_CHANGE_DATA_ID) ∧
    (data_registry.constructor.acquire_data registry_id.TELEMETRICS_DATA_ID).map Prod.fst =
      some (pointer.object registry_id.TELEMETRICS_DATA_ID) ∧
    (data_registry.constructor.acquire_data registry_id.REGULATOR_OUT_DATA_ID).map Prod.fst =
      some (pointer.object registry_id.REGULATOR_OUT_DATA_ID) ∧
    (data_registry.constructor.acquire_data registry_id.REGULATOR_PARAM_DATA_ID).map Prod.fst =
      some (pointer.object registry_id.REGULATOR_PARAM_DATA_ID) := by
  decide

/-- Claim C13, at inputs where it fails: on a freshly constructed registry, for each of
`MODE_ID`, `MISSION_DATA_ID`, `PATH_ID` and `REGULATOR_SAMPLE_DATA_ID` a call of `acquire_data`
by context 1 and then one by context 2 both return, with no `release_data` between them; both
return `nullptr`, the id having no entry and so no mutex. For `SENSOR_DATA_ID`, which has an
entry, the second call waits. -/
theorem C13_absent_entry_not_exclusive :
    (∀ id ∈ [registry_id.MODE_ID, registry_id.MISSION_DATA_ID, registry_id.PATH_ID,
        registry_id.REGULATOR_SAMPLE_DATA_ID],
      (data_registry.constructor.run [registry_call.acquire_data 1 id,
        registry_call.acquire_data 2 id]).isSome = true ∧
      (data_registry.constructor.acquire_data id).map Prod.fst = some pointer.nullptr ∧
      ((data_registry.constructor.acquire_data id).bind
        (fun x => (x.2.acquire_data id).map Prod.fst)) = some pointer.nullptr) ∧
    (data_registry.constructor.run [registry_call.acquire_data 1 registry_id.SENSOR_DATA_ID,
      registry_call.acquire_data 2 registry_id.SENSOR_DATA_ID]).isSome = false := by
  decide

/-! ## Lemmas: equal start and end -/

theorem finish_false_eq (g : graph) (start o1 o2 : Int) (out : outcome) :
    finish g start o1 false out = finish g start o2 false out := by
  cases out <;> simp [finish]

/-- With `insert_original_start` never set, `original_start` has no effect. -/
theorem search_and_unwind_original_start (H : heap_ops) (g : graph) (start stop o1 o2 : Int) :
    search_and_unwind H g start stop o1 = search_and_unwind H g start stop o2 := by
  unfold search_and_unwind
  cases search H g start with
  | none => rfl
  | some m => exact finish_false_eq g start o1 o2 _

theorem unwind_prefix (g : graph) (previous : Int → Int) (start : Int) :
    ∀ (fuel : Nat) (current : Int) (path p : List path_step),
      unwind g previous start fuel current path = outcome.returns p →
      ∃ rest, p = path ++ rest := by
  intro fuel
  induction fuel with
  | zero =>
    intro current path p h
    unfold unwind at h
    split at h
    · cases h; exact ⟨[], by simp⟩
    · cases h
  | succ fuel ih =>
    intro current path p h
    unfold unwind at h
    split at h
    · cases h; exact ⟨[], by simp⟩
    · split at h
      · cases h
      · obtain ⟨rest, hrest⟩ := ih _ _ p h
        exact ⟨_ :: rest, by rw [hrest, List.append_assoc]; rfl⟩

/-- Started away from `start`, the unwinding loop first collects a step at the node it was
started at. -/
theorem unwind_first (g : graph) (previous : Int → Int) (start : Int) (fuel : Nat)
    (current : Int) (p : List path_step) (hne : current ≠ start)
    (h : unwind g previous start fuel current [] = outcome.returns p) :
    ∃ d rest, p = path_step.mk current d :: rest := by
  cases fuel with
  | zero =>
    unfold unwind at h
    rw [if_neg hne] at h
    cases h
  | succ fuel =>
    unfold unwind at h
    rw [if_neg hne] at h
    split at h
    · cases h
    · rename_i e _
      obtain ⟨rest, hrest⟩ := unwind_prefix g previous start fuel _ _ p h
      exact ⟨e.dir, rest, by rw [hrest]; rfl⟩

/-- A sequence returned for `start ≠ end` ends with a step at `end`. -/
theorem search_and_unwind_last (H : heap_ops) (g : graph) (start stop original_start : Int)
    (p : List path_step) (hne : stop ≠ start)
    (h : search_and_unwind H g start stop original_start = outcome.returns p) :
    ∃ st, p.getLast? = some st ∧ st.node = stop := by
  unfold search_and_unwind at h
  split at h
  · cases h
  · rename_i m _
    cases hu : unwind g m.previous start (g.get_nodes + 2) stop [] with
    | returns path =>
      rw [hu] at h
      simp only [finish, Bool.false_eq_true, if_false] at h
      cases h
      obtain ⟨d, rest, hp⟩ := unwind_first g m.previous start _ stop path hne hu
      exact ⟨⟨stop, d⟩, by rw [List.getLast?_reverse, hp]; rfl, rfl⟩
    | undefined => rw [hu] at h; simp [finish] at h
    | diverges => rw [hu] at h; simp [finish] at h

/-! ## Claims: equal start and end, termination, overflow -/

/-- With `insert_original_start` never set: for a node `s` whose first outgoing edge ends at
`x ≠ s`, `find_shortest_path(g, s, s)` equals `find_shortest_path(g, x, s)`; a sequence it
returns ends with a step at `s` and has no step at `x`, so the hop `s → x` is not part of it; and
on a bounded graph in which every node is reachable from `x` it returns, with a lawful heap, a
route from `x` to `s` of least cost. -/
theorem find_shortest_path_equal_ends (H : heap_ops) (g : graph) (s : Int) (x : edge)
    (hx : (g.get_edges s).head? = some x) (hne : x.end_ ≠ s) :
    find_shortest_path H g s s = find_shortest_path H g x.end_ s ∧
    (∀ p, find_shortest_path H g s s = outcome.returns p →
      (∃ st, p.getLast? = some st ∧ st.node = s) ∧ ∀ st ∈ p, st.node ≠ x.end_) ∧
    (∀ B, H.lawful → g.bounded B → is_node g.get_nodes s →
      (∀ v, is_node g.get_nodes v → ∃ w, walk g x.end_ v w) →
      ∃ p c, find_shortest_path H g s s = outcome.returns p ∧
        route_ok g x.end_ p = true ∧ route_end x.end_ p = s ∧ route_cost g x.end_ p = some c ∧
        walk g x.end_ s c ∧ ∀ w, walk g x.end_ s w → c ≤ w) := by
  have h1 : find_shortest_path H g s s = search_and_unwind H g x.end_ s s := by
    unfold find_shortest_path
    rw [if_pos rfl, hx]
  have h2 : find_shortest_path H g x.end_ s = search_and_unwind H g x.end_ s (-1) := by
    unfold find_shortest_path
    rw [if_neg hne]
  have heq : find_shortest_path H g s s = find_shortest_path H g x.end_ s := by
    rw [h1, h2]; exact search_and_unwind_original_start H g x.end_ s s (-1)
  refine ⟨heq, ?_, ?_⟩
  · intro p hp
    rw [h1] at hp
    exact ⟨search_and_unwind_last H g x.end_ s s p (fun h => hne h.symm) hp,
      search_and_unwind_nodes_ne_start H g x.end_ s s p hp⟩
  · intro B hH hg hs hreach
    have hxn : is_node g.get_nodes x.end_ :=
      (bounded_edge g B hg s x (List.mem_of_mem_head? hx)).1
    rw [heq]
    exact find_shortest_path_exact H hH g B hg x.end_ s hxn hs hne hreach

/-- On the circuit `0 → 1 → 2 → 0` the loop from 0 is the route from 1:
`[(2, LEFT), (0, RIGHT)]`. -/
theorem find_shortest_path_equal_ends_on_ring :
    (ring_graph.get_edges 0).head? = some ⟨1, 1, direction.FORWARD⟩ ∧
    find_shortest_path sorted_heap ring_graph 0 0 = find_shortest_path sorted_heap ring_graph 1 0 ∧
    find_shortest_path sorted_heap ring_graph 0 0 =
      outcome.returns [⟨2, direction.LEFT⟩, ⟨0, direction.RIGHT⟩] :=
  ⟨by decide,
    (find_shortest_path_equal_ends sorted_heap ring_graph 0 ⟨1, 1, direction.FORWARD⟩
      (by decide) (by decide)).1, by decide⟩

/-- Claim C18, at an input where it fails: on `overflow_circuit_graph` (non-negative costs) the
first outgoing edge of node 0 ends at node 1, and the edge `1 → 0` of cost 1 is a route from 1
back to 0. `find_shortest_path(g, 0, 0)` does equal `find_shortest_path(g, 1, 0)`, but with every
lawful heap neither is that route: node 2 is popped at `INT_MAX`, the sum of line 58 overflows
and records 2 as the predecessor of 0, and the unwinding loop ends in a lookup of the edge
`0 → 2`, which the graph does not have. -/
theorem C18_loop_overflow_no_route (H : heap_ops) (hH : H.lawful) :
    overflow_circuit_graph.nonneg_costs ∧
    (overflow_circuit_graph.get_edges 0).head? = some ⟨1, 1, direction.FORWARD⟩ ∧
    walk overflow_circuit_graph 1 0 (0 + 1) ∧
    route_cost overflow_circuit_graph 1 [⟨0, direction.LEFT⟩] = some 1 ∧
    overflow_circuit_graph.get_edge 0 2 = none ∧
    find_shortest_path H overflow_circuit_graph 0 0 =
      find_shortest_path H overflow_circuit_graph 1 0 ∧
    find_shortest_path H overflow_circuit_graph 0 0 = outcome.undefined := by
  refine ⟨by decide, by decide, walk.step ⟨0, 1, direction.LEFT⟩ (walk.refl 1) (by decide),
    by decide, by decide, ?_, ?_⟩
  · have h1 : find_shortest_path H overflow_circuit_graph 0 0 =
        search_and_unwind H overflow_circuit_graph 1 0 0 := by
      unfold find_shortest_path
      rw [if_pos rfl]
      rfl
    have h2 : find_shortest_path H overflow_circuit_graph 1 0 =
        search_and_unwind H overflow_circuit_graph 1 0 (-1) := by
      unfold find_shortest_path
      rw [if_neg (by decide)]
    rw [h1, h2]
    exact search_and_unwind_original_start H overflow_circuit_graph 1 0 0 (-1)
  · have hall : ∀ o ∈ find_shortest_path_outcomes overflow_circuit_graph 0 0,
        o = outcome.undefined := by decide
    exact hall _ (find_shortest_path_mem H hH overflow_circuit_graph 0 0)

/-- Witness of `C18_loop_overflow_no_route` at the reference heap. -/
theorem C18_loop_overflow_no_route_witness :
    sorted_heap.lawful ∧
    find_shortest_path sorted_heap overflow_circuit_graph 0 0 = outcome.undefined :=
  ⟨sorted_heap_lawful,
    (C18_loop_overflow_no_route sorted_heap sorted_heap_lawful).2.2.2.2.2.2⟩

/-- Claim C19, at an input where it fails: `overflow_cycle_graph` has 4 nodes and non-negative
costs, and node 1 is reachable from node 0; yet with every lawful heap the predecessor chain
from 1 never reaches the start 0, however many lookups are made: the unwinding loop does not
terminate and `find_shortest_path(g, 0, 1)` returns no sequence. -/
theorem C19_unwinding_never_reaches_start (H : heap_ops) (hH : H.lawful) :
    overflow_cycle_graph.get_nodes = 4 ∧
    overflow_cycle_graph.nonneg_costs ∧
    walk overflow_cycle_graph 0 1 (0 + 1) ∧
    (∃ m, search H overflow_cycle_graph 0 = some m ∧ ∀ k, m.previous^[k] 1 ≠ 0) ∧
    ∀ p, find_shortest_path H overflow_cycle_graph 0 1 ≠ outcome.returns p := by
  have hall : ∀ o ∈ find_shortest_path_outcomes overflow_cycle_graph 0 1,
      o = outcome.diverges := by decide
  have hd := hall _ (find_shortest_path_mem H hH overflow_cycle_graph 0 1)
  refine ⟨rfl, by decide, walk.step ⟨1, 1, direction.FORWARD⟩ (walk.refl 0) (by decide), ?_, ?_⟩
  · obtain ⟨m, hm, _⟩ := search_mem H hH overflow_cycle_graph 0
    refine ⟨m, hm, fun k => ?_⟩
    have hne : (0 : Int) ≠ 1 := by decide
    have hd2 := hd
    unfold find_shortest_path at hd2
    rw [if_neg hne] at hd2
    unfold search_and_unwind at hd2
    rw [hm] at hd2
    have hfuel := unwinding_bound_exact H hH overflow_cycle_graph 0 1 m hm
      (finish_false_diverges _ _ _ _ hd2) k
    exact ((unwind_diverges_iff overflow_cycle_graph m.previous 0 k 1 []).1 hfuel).2
  · intro p hp
    rw [hd] at hp
    cases hp

/-- Witness of `C19_unwinding_never_reaches_start` at the reference heap. -/
theorem C19_unwinding_never_reaches_start_witness :
    sorted_heap.lawful ∧
    ∀ p, find_shortest_path sorted_heap overflow_cycle_graph 0 1 ≠ outcome.returns p :=
  ⟨sorted_heap_lawful,
    (C19_unwinding_never_reaches_start sorted_heap sorted_heap_lawful).2.2.2.2⟩

/-- Claim C20, at an input where it fails: on `overflow_graph` (non-negative costs; the
distances from node 0 are 0 and 1, node 2 is unreachable) node 2 is popped while its cost is
still `INT_MAX`; the tentative cost `INT_MAX + 1` for its edge `2 → 1` is above `INT_MAX`, wraps
to `INT_MIN`, and replaces the cost 1 and the predecessor 0 of node 1. With every lawful heap
the search ends with `dist[1] = INT_MIN` and `previous[1] = 2`. -/
theorem C20_overflow_on_unreachable_node (H : heap_ops) (hH : H.lawful) :
    overflow_graph.nonneg_costs ∧
    (relax overflow_graph 1 (relax overflow_graph 0 ⟨init_dist 3 0, fun _ => 0⟩).1).1.dist 2
      = INT_MAX ∧
    (relax overflow_graph 1 (relax overflow_graph 0 ⟨init_dist 3 0, fun _ => 0⟩).1).1.dist 1
      = 1 ∧
    (relax overflow_graph 1 (relax overflow_graph 0 ⟨init_dist 3 0, fun _ => 0⟩).1).1.previous 1
      = 0 ∧
    INT_MAX < INT_MAX + 1 ∧ wrap_int (INT_MAX + 1) = INT_MIN ∧
    (relax overflow_graph 2
      (relax overflow_graph 1 (relax overflow_graph 0 ⟨init_dist 3 0, fun _ => 0⟩).1).1).1.dist 1
      = INT_MIN ∧
    (relax overflow_graph 2
      (relax overflow_graph 1
        (relax overflow_graph 0 ⟨init_dist 3 0, fun _ => 0⟩).1).1).1.previous 1 = 2 ∧
    ∃ m, search H overflow_graph 0 = some m ∧
      m.dist 2 = INT_MAX ∧ m.dist 1 = INT_MIN ∧ m.previous 1 = 2 := by
  refine ⟨by decide, by decide, by decide, by decide, by decide, by decide, by decide,
    by decide, ?_⟩
  obtain ⟨m, hm, hmem⟩ := search_mem H hH overflow_graph 0
  have hall : ∀ r ∈ all_runs overflow_graph (init_queue overflow_graph.get_nodes 0).length
      ⟨init_dist overflow_graph.get_nodes 0, fun _ => 0⟩ (init_queue overflow_graph.get_nodes 0),
      r.dist 2 = INT_MAX ∧ r.dist 1 = INT_MIN ∧ r.previous 1 = 2 := by decide
  exact ⟨m, hm, hall m hmem⟩

/-- Witness of `C20_overflow_on_unreachable_node` at the reference heap. -/
theorem C20_overflow_on_unreachable_node_witness :
    sorted_heap.lawful ∧
    ∃ m, search sorted_heap overflow_graph 0 = some m ∧
      m.dist 2 = INT_MAX ∧ m.dist 1 = INT_MIN ∧ m.previous 1 = 2 :=
  ⟨sorted_heap_lawful,
    (C20_overflow_on_unreachable_node sorted_heap sorted_heap_lawful).2.2.2.2.2.2.2.2⟩

end CentralModule
